import Mathlib

/-!
Verification of the SQLite-over-HTTP query/streaming service (`src/app.py`).

The development shallowly embeds the query pipeline of `app.py`:

* `Value` models the SQLite scalar values the service handles (text, integer,
  null); `renderCsvField` is the textual conversion Python's `csv` module
  applies to a field (`str` for integers, the empty string for `None`).
* `fetchBatches` embeds the `cursor.fetchmany(BATCH_SIZE)` loop of the
  `/query` handler (lines 315-322) and, identically, the `all_rows[i:i+B]`
  slicing of `stream_csv_rows` (line 106-107).
* `stream_csv_rows` / `stream_json_rows` embed the two generator functions of
  the same names: the CSV encoder mirrors CPython's `csv.writer` with the
  default dialect (QUOTE_MINIMAL, quotechar `"`, doubled quotes, line
  terminator CRLF, `None` as empty, a lone empty field of a 1-field row
  forced to `""`); the JSON encoder mirrors `json.dumps(row_dict,
  ensure_ascii=False)` with default separators.
* `parseCSV` and `parseJson` are standard, executable parsers (RFC-4180-style
  delimited text with quoting; JSON values restricted to the scalar forms the
  encoder can emit) used to state the round-trip claims.
* `query` embeds the `/query` endpoint handler as a function of an explicit
  `Config` (timeout, batch size) and an `Env` describing the behaviour of the
  file system / SQLite driver during the request, returning the result
  together with a trace of connection/fetch events; `fullTrace` appends the
  chunk emissions of the returned streaming generator.
-/

/-- A SQLite scalar value as handled by the service: text, integer, or NULL.
(Real and blob columns are outside the value model; none of the claims
depends on their driver-specific textual form.) -/
inductive Value where
  | text (s : String)
  | intv (n : Int)
  | null
deriving DecidableEq

/-- Decimal digit character, for `n < 10`. -/
def digitChar (n : Nat) : Char := Char.ofNat (48 + n)

/-- Fuel-driven decimal rendering of a natural number (most significant digit
first), accumulating into `acc`. -/
def natToCharsAux : Nat → Nat → List Char → List Char
  | 0, _, acc => acc
  | fuel+1, n, acc =>
    if n < 10 then digitChar n :: acc
    else natToCharsAux fuel (n / 10) (digitChar (n % 10) :: acc)

/-- Decimal rendering of a natural number, as Python's `str`. -/
def natToChars (n : Nat) : List Char := natToCharsAux (n + 1) n []

/-- Decimal rendering of an integer, as Python's `str` (minus sign for
negatives). -/
def intChars : Int → List Char
  | .ofNat n => natToChars n
  | .negSucc m => '-' :: natToChars (m + 1)

/-- The characters Python's `csv` module writes for one field value:
`None` becomes the empty string, integers go through `str`. -/
def renderChars : Value → List Char
  | .text s => s.data
  | .intv n => intChars n
  | .null => []

/-- The string Python's `csv` module writes for one field value. -/
def renderCsvField (v : Value) : String := String.mk (renderChars v)

/-! ### The batch fetcher

`app.py` lines 315-322 pull rows with `cursor.fetchmany(BATCH_SIZE)` until an
empty list comes back, extending `all_rows` with every non-empty batch; the
CSV generator re-slices `all_rows[i:i+BATCH_SIZE]` (line 106-107), producing
the same partition.  `fetchBatches B l` is that partition.  The fuel argument
only drives termination: `l.length` steps always suffice when `B > 0`. -/

def fetchBatchesAux (B : Nat) : Nat → List α → List (List α)
  | 0, _ => []
  | _+1, [] => []
  | fuel+1, x :: xs => (x :: xs).take B :: fetchBatchesAux B fuel ((x :: xs).drop B)

/-- The list of row batches the fetch loop produces, in order. -/
def fetchBatches (B : Nat) (l : List α) : List (List α) :=
  fetchBatchesAux B l.length l

theorem fetchBatchesAux_nil (B f : Nat) : fetchBatchesAux B f ([] : List α) = [] := by
  cases f <;> rfl

theorem fetchBatchesAux_congr (B : Nat) (hB : 0 < B) :
    ∀ f₁ f₂ (l : List α), l.length ≤ f₁ → l.length ≤ f₂ →
      fetchBatchesAux B f₁ l = fetchBatchesAux B f₂ l := by
  intro f₁
  induction f₁ with
  | zero =>
    intro f₂ l h₁ _
    have : l = [] := List.length_eq_zero.mp (Nat.le_zero.mp h₁)
    subst this
    simp [fetchBatchesAux_nil]
  | succ g ih =>
    intro f₂ l h₁ h₂
    cases l with
    | nil => simp [fetchBatchesAux_nil]
    | cons x xs =>
      cases f₂ with
      | zero => simp at h₂
      | succ g₂ =>
        show (x :: xs).take B :: fetchBatchesAux B g ((x :: xs).drop B)
            = (x :: xs).take B :: fetchBatchesAux B g₂ ((x :: xs).drop B)
        have hlen : ((x :: xs).drop B).length = (x :: xs).length - B := by
          simp [List.length_drop]
        have hlx : (x :: xs).length = xs.length + 1 := rfl
        have hd₁ : ((x :: xs).drop B).length ≤ g := by omega
        have hd₂ : ((x :: xs).drop B).length ≤ g₂ := by omega
        rw [ih _ _ hd₁ hd₂]

theorem fetchBatches_nil (B : Nat) : fetchBatches B ([] : List α) = [] := rfl

theorem fetchBatches_cons (B : Nat) (hB : 0 < B) (x : α) (xs : List α) :
    fetchBatches B (x :: xs) = (x :: xs).take B :: fetchBatches B ((x :: xs).drop B) := by
  show fetchBatchesAux B ((x :: xs).length) (x :: xs)
      = (x :: xs).take B :: fetchBatches B ((x :: xs).drop B)
  have hlx : (x :: xs).length = xs.length + 1 := rfl
  rw [hlx]
  show (x :: xs).take B :: fetchBatchesAux B xs.length ((x :: xs).drop B)
      = (x :: xs).take B :: fetchBatchesAux B ((x :: xs).drop B).length ((x :: xs).drop B)
  have hlen : ((x :: xs).drop B).length = (x :: xs).length - B := by
    simp [List.length_drop]
  have h₁ : ((x :: xs).drop B).length ≤ xs.length := by omega
  rw [fetchBatchesAux_congr B hB _ _ _ h₁ (Nat.le_refl _)]

theorem fetchBatches_flatten (B : Nat) (hB : 0 < B) (l : List α) :
    (fetchBatches B l).flatten = l := by
  have key : ∀ n (l : List α), l.length ≤ n → (fetchBatches B l).flatten = l := by
    intro n
    induction n with
    | zero =>
      intro l h
      have : l = [] := List.length_eq_zero.mp (Nat.le_zero.mp h)
      subst this; rfl
    | succ n ih =>
      intro l h
      cases l with
      | nil => rfl
      | cons x xs =>
        rw [fetchBatches_cons B hB]
        have hlen : ((x :: xs).drop B).length = (x :: xs).length - B := by
          simp [List.length_drop]
        have hlx : (x :: xs).length = xs.length + 1 := rfl
        have : ((x :: xs).drop B).length ≤ n := by omega
        simp only [List.flatten_cons, ih _ this, List.take_append_drop]
  exact key l.length l (Nat.le_refl _)

theorem fetchBatches_ne_nil (B : Nat) (hB : 0 < B) (l : List α) (hl : l ≠ []) :
    fetchBatches B l ≠ [] := by
  cases l with
  | nil => exact absurd rfl hl
  | cons x xs => rw [fetchBatches_cons B hB]; exact List.cons_ne_nil _ _

theorem fetchBatches_count (B : Nat) (hB : 0 < B) (l : List α) :
    (fetchBatches B l).length = (l.length + B - 1) / B := by
  have key : ∀ n (l : List α), l.length ≤ n →
      (fetchBatches B l).length = (l.length + B - 1) / B := by
    intro n
    induction n with
    | zero =>
      intro l h
      have : l = [] := List.length_eq_zero.mp (Nat.le_zero.mp h)
      subst this
      have h₂ : (B - 1) / B = 0 := Nat.div_eq_of_lt (by omega)
      simp [fetchBatches_nil, h₂]
    | succ n ih =>
      intro l h
      cases l with
      | nil =>
        have h₂ : (0 + B - 1) / B = 0 := Nat.div_eq_of_lt (by omega)
        simp only [fetchBatches_nil, List.length_nil, h₂]
      | cons x xs =>
        rw [fetchBatches_cons B hB]
        have hlx : (x :: xs).length = xs.length + 1 := rfl
        have hlen : ((x :: xs).drop B).length = (x :: xs).length - B := by
          simp [List.length_drop]
        have hrec : ((x :: xs).drop B).length ≤ n := by omega
        simp only [List.length_cons, ih _ hrec]
        rw [hlen, hlx]
        rcases Nat.lt_or_ge (xs.length + 1) B with hlt | hge
        · have h₁ : xs.length + 1 - B = 0 := by omega
          rw [h₁]
          have h₂ : (0 + B - 1) / B = 0 := Nat.div_eq_of_lt (by omega)
          rw [h₂]
          have h₃ : xs.length + 1 + B - 1 = xs.length + 1 - 1 + B := by omega
          rw [h₃, Nat.add_div_right _ hB]
          have h₄ : (xs.length + 1 - 1) / B = 0 := Nat.div_eq_of_lt (by omega)
          omega
        · have h₃ : xs.length + 1 + B - 1 = (xs.length + 1 - B + B - 1) + B := by omega
          rw [h₃, Nat.add_div_right _ hB]
  exact key l.length l (Nat.le_refl _)

theorem fetchBatches_mem (B : Nat) (hB : 0 < B) (l : List α) :
    ∀ b ∈ fetchBatches B l, b.length ≤ B ∧ b ≠ [] := by
  have key : ∀ n (l : List α), l.length ≤ n →
      ∀ b ∈ fetchBatches B l, b.length ≤ B ∧ b ≠ [] := by
    intro n
    induction n with
    | zero =>
      intro l h b hb
      have : l = [] := List.length_eq_zero.mp (Nat.le_zero.mp h)
      subst this
      simp [fetchBatches_nil] at hb
    | succ n ih =>
      intro l h b hb
      cases l with
      | nil => simp [fetchBatches_nil] at hb
      | cons x xs =>
        rw [fetchBatches_cons B hB] at hb
        have hlx : (x :: xs).length = xs.length + 1 := rfl
        rcases List.mem_cons.mp hb with hb | hb
        · subst hb
          have htk : ((x :: xs).take B).length = min B (xs.length + 1) := by
            rw [List.length_take, hlx]
          constructor
          · omega
          · have hpos : 0 < ((x :: xs).take B).length := by omega
            intro hcon
            rw [hcon] at hpos
            simp at hpos
        · have hlen : ((x :: xs).drop B).length = (x :: xs).length - B := by
            simp [List.length_drop]
          exact ih _ (by omega) b hb
  exact key l.length l (Nat.le_refl _)

theorem fetchBatches_dropLast (B : Nat) (hB : 0 < B) (l : List α) :
    ∀ b ∈ (fetchBatches B l).dropLast, b.length = B := by
  have key : ∀ n (l : List α), l.length ≤ n →
      ∀ b ∈ (fetchBatches B l).dropLast, b.length = B := by
    intro n
    induction n with
    | zero =>
      intro l h b hb
      have : l = [] := List.length_eq_zero.mp (Nat.le_zero.mp h)
      subst this
      simp [fetchBatches_nil] at hb
    | succ n ih =>
      intro l h b hb
      cases l with
      | nil => simp [fetchBatches_nil] at hb
      | cons x xs =>
        rw [fetchBatches_cons B hB] at hb
        by_cases hrest : (x :: xs).drop B = []
        · rw [hrest, fetchBatches_nil] at hb
          simp at hb
        · have hne : fetchBatches B ((x :: xs).drop B) ≠ [] :=
            fetchBatches_ne_nil B hB _ hrest
          rw [List.dropLast_cons_of_ne_nil hne] at hb
          have hlx : (x :: xs).length = xs.length + 1 := rfl
          have hlen : ((x :: xs).drop B).length = (x :: xs).length - B := by
            simp [List.length_drop]
          rcases List.mem_cons.mp hb with hb | hb
          · subst hb
            have hlt : B < xs.length + 1 := by
              by_contra hc
              push_neg at hc
              have hz : ((x :: xs).drop B).length = 0 := by omega
              exact hrest (List.length_eq_zero.mp hz)
            rw [List.length_take, hlx]
            omega
          · exact ih _ (by omega) b hb
  exact key l.length l (Nat.le_refl _)

/-! ### The delimited-text (CSV) encoder

`stream_csv_rows` (app.py lines 89-130) writes the header and each row with
`csv.writer(output, delimiter=delimiter)` on a `StringIO`, yielding the header
as one chunk and each `BATCH_SIZE`-slice of `all_rows` as one chunk.  CPython's
default dialect: QUOTE_MINIMAL (a field is quoted iff it contains the
delimiter, the quote char `"`, or a character of the line terminator `\r\n`),
doublequote (an embedded `"` is doubled), line terminator `\r\n`, `None`
written as the empty string, and a row consisting of exactly one empty field
written as `""`. -/

/-- Whether `csv.writer` (QUOTE_MINIMAL) must quote a field with these
characters. -/
def needsQuote (delim : Char) (cs : List Char) : Bool :=
  cs.any (fun c => c == delim || c == '"' || c == '\r' || c == '\n')

/-- Double every quote character (CPython's doublequote escaping). -/
def doubleQ : List Char → List Char
  | [] => []
  | c :: cs => if c = '"' then '"' :: '"' :: doubleQ cs else c :: doubleQ cs

/-- One encoded CSV field.  `single` records whether the row has exactly one
field: CPython then writes an empty field as `""` so the record is not an
empty line. -/
def encodeField (delim : Char) (single : Bool) (cs : List Char) : List Char :=
  if needsQuote delim cs || (single && cs.isEmpty) then
    '"' :: (doubleQ cs ++ ['"'])
  else cs

/-- Join chunks with a separator (used for the delimiter between CSV fields
and for `", "` between JSON object members). -/
def joinSep (sep : List Char) : List (List Char) → List Char
  | [] => []
  | [x] => x
  | x :: y :: xs => x ++ (sep ++ joinSep sep (y :: xs))

/-- One CSV record as `csv.writer.writerow` emits it, terminator included. -/
def encodeRow (delim : Char) (fields : List (List Char)) : List Char :=
  joinSep [delim] (fields.map (encodeField delim (fields.length == 1))) ++ ['\r', '\n']

/-- The chunks yielded by `stream_csv_rows(all_rows, column_names, delimiter)`:
the header record, then one chunk per `BATCH_SIZE`-slice of `all_rows`, each
chunk the concatenation of its rows' records. -/
def stream_csv_rows (all_rows : List (List Value)) (column_names : List String)
    (delim : Char) (B : Nat) : List (List Char) :=
  encodeRow delim (column_names.map String.data) ::
    (fetchBatches B all_rows).map
      (fun batch => (batch.map (fun r => encodeRow delim (r.map renderChars))).flatten)

/-- The full delimited-text output: the concatenation of all chunks. -/
def csvText (column_names : List String) (all_rows : List (List Value))
    (delim : Char) (B : Nat) : List Char :=
  (stream_csv_rows all_rows column_names delim B).flatten

/-! ### A standard CSV parser

An executable RFC-4180-style parser, parameterised by the delimiter, with the
usual quoting rules (a field starting with `"` is quoted; an embedded doubled
`""` is one quote; records end at `\r\n`, `\r`, `\n`, or end of input).  It is
total: malformed input (an unterminated quote, a stray character after a
closing quote) is handled leniently, as common readers do. -/

/-- Parse an unquoted field: everything up to the delimiter, `\r`, `\n`, or
the end of input. -/
def parseUnquoted (delim : Char) : List Char → List Char × List Char
  | [] => ([], [])
  | c :: cs =>
    if c = delim ∨ c = '\r' ∨ c = '\n' then ([], c :: cs)
    else
      let p := parseUnquoted delim cs
      (c :: p.1, p.2)

/-- Parse the body of a quoted field (after the opening quote): `""` is an
embedded quote, a single `"` closes the field.  An unterminated quote
consumes the rest of the input. -/
def parseQuoted : List Char → List Char × List Char
  | [] => ([], [])
  | c :: cs =>
    if c = '"' then
      match cs with
      | [] => ([], [])
      | c₂ :: cs₂ =>
        if c₂ = '"' then
          let p := parseQuoted cs₂
          ('"' :: p.1, p.2)
        else ([], c₂ :: cs₂)
    else
      let p := parseQuoted cs
      (c :: p.1, p.2)

/-- Parse one field: quoted if it starts with `"`, unquoted otherwise. -/
def parseField (delim : Char) (cs : List Char) : List Char × List Char :=
  match cs with
  | [] => ([], [])
  | c :: cs' => if c = '"' then parseQuoted cs' else parseUnquoted delim (c :: cs')

/-- Parse one record: fields separated by the delimiter, ended by `\r\n`,
`\r`, `\n`, or end of input.  The fuel bounds the number of fields. -/
def parseRecord (delim : Char) : Nat → List Char → List String × List Char
  | 0, cs => ([], cs)
  | fuel+1, cs =>
    let p := parseField delim cs
    match p.2 with
    | [] => ([String.mk p.1], [])
    | c :: r =>
      if c = '\r' then
        match r with
        | [] => ([String.mk p.1], [])
        | c₂ :: r₂ => if c₂ = '\n' then ([String.mk p.1], r₂) else ([String.mk p.1], c₂ :: r₂)
      else if c = '\n' then ([String.mk p.1], r)
      else if c = delim then
        let q := parseRecord delim fuel r
        (String.mk p.1 :: q.1, q.2)
      else ([String.mk p.1], c :: r)

/-- Parse a sequence of records until the input is exhausted.  The fuel bounds
the number of records. -/
def parseRecords (delim : Char) : Nat → List Char → List (List String)
  | 0, _ => []
  | fuel+1, cs =>
    if cs.isEmpty then []
    else
      let p := parseRecord delim cs.length cs
      p.1 :: parseRecords delim fuel p.2

/-- Parse delimited text into records of fields, standard CSV rules, with the
given delimiter. -/
def parseCSV (delim : Char) (cs : List Char) : List (List String) :=
  parseRecords delim (cs.length + 1) cs

/-! ### CSV round-trip lemmas -/

theorem String_mk_data (s : String) : String.mk s.data = s := rfl

theorem parseUnquoted_append (delim : Char) (s rest : List Char)
    (hs : ∀ c ∈ s, ¬(c = delim ∨ c = '\r' ∨ c = '\n'))
    (hrest : ∀ c, rest.head? = some c → (c = delim ∨ c = '\r' ∨ c = '\n')) :
    parseUnquoted delim (s ++ rest) = (s, rest) := by
  induction s with
  | nil =>
    cases rest with
    | nil => rfl
    | cons c r =>
      have hstop := hrest c rfl
      rw [parseUnquoted.eq_def]
      simp [hstop]
  | cons c s ih =>
    have hc := hs c (List.mem_cons_self c s)
    have ih' := ih (fun x hx => hs x (List.mem_cons_of_mem c hx))
    rw [List.cons_append, parseUnquoted.eq_def]
    simp [hc, ih']

theorem parseQuoted_append (s rest : List Char)
    (hrest : ∀ c, rest.head? = some c → c ≠ '"') :
    parseQuoted (doubleQ s ++ '"' :: rest) = (s, rest) := by
  induction s with
  | nil =>
    cases rest with
    | nil => rfl
    | cons c r =>
      have hne := hrest c rfl
      rw [doubleQ, List.nil_append, parseQuoted.eq_def]
      simp [hne]
  | cons c s ih =>
    by_cases hc : c = '"'
    · subst hc
      rw [doubleQ]
      simp only [if_pos rfl, List.cons_append]
      rw [parseQuoted.eq_def]
      simp [ih]
    · rw [doubleQ]
      simp only [if_neg hc, List.cons_append]
      rw [parseQuoted.eq_def]
      simp [hc, ih]

theorem needsQuote_false (delim : Char) (s : List Char) (h : needsQuote delim s = false) :
    ∀ c ∈ s, ¬(c = delim ∨ c = '"' ∨ c = '\r' ∨ c = '\n') := by
  intro c hc
  simp only [needsQuote, List.any_eq_false] at h
  have := h c hc
  simp at this
  tauto

theorem parseField_encodeField (delim : Char) (b : Bool) (s rest : List Char)
    (hq : delim ≠ '"')
    (hrest : ∀ c, rest.head? = some c → (c = delim ∨ c = '\r' ∨ c = '\n')) :
    parseField delim (encodeField delim b s ++ rest) = (s, rest) := by
  have hrest' : ∀ c, rest.head? = some c → c ≠ '"' := by
    intro c hc
    rcases hrest c hc with h | h | h
    · intro hcon
      rw [hcon] at h
      exact hq h.symm
    · subst h; decide
    · subst h; decide
  unfold encodeField
  by_cases h : (needsQuote delim s || (b && s.isEmpty)) = true
  · rw [if_pos h]
    have hshape : ('"' :: (doubleQ s ++ ['"'])) ++ rest = '"' :: (doubleQ s ++ '"' :: rest) := by
      simp
    rw [hshape]
    simp only [parseField, if_pos rfl]
    exact parseQuoted_append s rest hrest'
  · rw [if_neg h]
    have h' : (needsQuote delim s || (b && s.isEmpty)) = false := by
      cases hcase : (needsQuote delim s || (b && s.isEmpty)) with
      | false => rfl
      | true => exact absurd hcase h
    have hnq : needsQuote delim s = false := by
      rcases Bool.or_eq_false_iff.mp h' with ⟨h₁, _⟩
      exact h₁
    have hchars := needsQuote_false delim s hnq
    cases s with
    | nil =>
      cases rest with
      | nil => rfl
      | cons c r =>
        have hstop := hrest c rfl
        have hcq := hrest' c rfl
        simp only [List.nil_append, parseField, if_neg hcq]
        rw [parseUnquoted.eq_def]
        simp [hstop]
    | cons c s' =>
      have hc := hchars c (List.mem_cons_self c s')
      have hcq : c ≠ '"' := fun hcon => hc (Or.inr (Or.inl hcon))
      simp only [List.cons_append, parseField, if_neg hcq]
      have hs : ∀ x ∈ c :: s', ¬(x = delim ∨ x = '\r' ∨ x = '\n') := by
        intro x hx
        have := hchars x hx
        tauto
      have := parseUnquoted_append delim (c :: s') rest hs hrest
      rw [List.cons_append] at this
      exact this

theorem parseRecord_fields (delim : Char) (hq : delim ≠ '"') (hr : delim ≠ '\r')
    (hn : delim ≠ '\n') (b : Bool) :
    ∀ (fields : List (List Char)) (fuel : Nat) (rest : List Char), fields ≠ [] →
      fields.length ≤ fuel →
      parseRecord delim fuel
          (joinSep [delim] (fields.map (encodeField delim b)) ++ ('\r' :: '\n' :: rest))
        = (fields.map String.mk, rest) := by
  intro fields
  induction fields with
  | nil => intro fuel rest hne; exact absurd rfl hne
  | cons f fs ih =>
    intro fuel rest _ hfuel
    cases fuel with
    | zero => simp at hfuel
    | succ g =>
      cases fs with
      | nil =>
        have hone : joinSep [delim] ([f].map (encodeField delim b)) = encodeField delim b f := rfl
        rw [hone]
        have hfield := parseField_encodeField delim b f ('\r' :: '\n' :: rest) hq
          (fun c hc => by simp at hc; subst hc; right; left; rfl)
        rw [parseRecord.eq_def]
        simp [hfield]
      | cons f₂ fs₂ =>
        have hjoin : joinSep [delim] ((f :: f₂ :: fs₂).map (encodeField delim b))
            = encodeField delim b f ++
              ([delim] ++ joinSep [delim] ((f₂ :: fs₂).map (encodeField delim b))) := rfl
        rw [hjoin]
        have hassoc : (encodeField delim b f ++
              ([delim] ++ joinSep [delim] ((f₂ :: fs₂).map (encodeField delim b))))
              ++ ('\r' :: '\n' :: rest)
            = encodeField delim b f ++
              (delim :: (joinSep [delim] ((f₂ :: fs₂).map (encodeField delim b))
                ++ ('\r' :: '\n' :: rest))) := by
          simp
        rw [hassoc]
        have hrec := ih g rest (List.cons_ne_nil _ _) (by simp at hfuel ⊢; omega)
        set X := joinSep [delim] ((f₂ :: fs₂).map (encodeField delim b))
          ++ ('\r' :: '\n' :: rest) with hX
        have hfield := parseField_encodeField delim b f (delim :: X) hq
          (fun c hc => by simp at hc; subst hc; left; rfl)
        rw [parseRecord.eq_def]
        simp [hfield, hr, hn, hrec]

theorem joinSep_length_ge (d : Char) (xs : List (List Char)) :
    xs.length - 1 ≤ (joinSep [d] xs).length := by
  induction xs with
  | nil => simp [joinSep]
  | cons x ys ih =>
    cases ys with
    | nil => simp [joinSep]
    | cons y ys' =>
      rw [joinSep]
      simp only [List.length_append, List.length_cons] at ih ⊢
      simp at ih ⊢
      omega

theorem encodeRow_length_ge (delim : Char) (fields : List (List Char)) :
    fields.length + 1 ≤ (encodeRow delim fields).length := by
  unfold encodeRow
  have h := joinSep_length_ge delim (fields.map (encodeField delim (fields.length == 1)))
  simp only [List.length_map] at h
  simp [List.length_append]
  omega

theorem parseRecords_rows (delim : Char) (hq : delim ≠ '"') (hr : delim ≠ '\r')
    (hn : delim ≠ '\n') :
    ∀ (rss : List (List (List Char))) (fuel : Nat), (∀ r ∈ rss, r ≠ []) →
      rss.length ≤ fuel →
      parseRecords delim fuel ((rss.map (fun r => encodeRow delim r)).flatten)
        = rss.map (fun r => r.map String.mk) := by
  intro rss
  induction rss with
  | nil =>
    intro fuel _ _
    cases fuel with
    | zero => rfl
    | succ g => rw [parseRecords.eq_def]; simp
  | cons r rss' ih =>
    intro fuel hne hfuel
    cases fuel with
    | zero => simp at hfuel
    | succ g =>
      have hrne : r ≠ [] := hne r (List.mem_cons_self r rss')
      simp only [List.map_cons, List.flatten_cons]
      set rest := ((rss'.map (fun r => encodeRow delim r)).flatten) with hrestdef
      have hrlen1 : 1 ≤ r.length := by
        cases r with
        | nil => exact absurd rfl hrne
        | cons a as => simp
      have h2 : 2 ≤ (encodeRow delim r).length := by
        have := encodeRow_length_ge delim r
        omega
      have h0 : 0 < (encodeRow delim r ++ rest).length := by
        simp [List.length_append]
        omega
      have hemp : (encodeRow delim r ++ rest).isEmpty = false := by
        cases hin : encodeRow delim r ++ rest with
        | nil => rw [hin] at h0; simp at h0
        | cons a as => rfl
      rw [parseRecords.eq_def]
      simp only [hemp, Bool.false_eq_true, if_false]
      have hshape : encodeRow delim r ++ rest
          = joinSep [delim] (r.map (encodeField delim (r.length == 1)))
            ++ ('\r' :: '\n' :: rest) := by
        unfold encodeRow
        simp
      set Y := joinSep [delim] (r.map (encodeField delim (r.length == 1)))
        ++ ('\r' :: '\n' :: rest) with hY
      rw [hshape]
      have hflen : r.length ≤ Y.length := by
        rw [hY]
        have hj := joinSep_length_ge delim (r.map (encodeField delim (r.length == 1)))
        simp only [List.length_map] at hj
        have hrlen : 1 ≤ r.length := by
          cases r with
          | nil => exact absurd rfl hrne
          | cons a as => simp
        simp [List.length_append]
        omega
      have hrec := parseRecord_fields delim hq hr hn (r.length == 1) r Y.length rest
        hrne hflen
      rw [← hY] at hrec
      rw [hrec]
      have hfuel' : rss'.length ≤ g := by
        simp only [List.length_cons] at hfuel
        omega
      rw [ih g (fun x hx => hne x (List.mem_cons_of_mem r hx)) hfuel']

theorem flatten_map_flatten (L : List (List α)) (f : α → List β) :
    (L.map (fun b => (b.map f).flatten)).flatten = ((L.flatten).map f).flatten := by
  induction L with
  | nil => rfl
  | cons b L ih =>
    simp only [List.map_cons, List.flatten_cons, List.map_append, List.flatten_append, ih]

/-- The concatenated delimited-text output is the header record followed by
one record per row, in order — independent of the batch size. -/
theorem csvText_eq (column_names : List String) (all_rows : List (List Value))
    (delim : Char) (B : Nat) (hB : 0 < B) :
    csvText column_names all_rows delim B
      = (((column_names.map String.data) :: all_rows.map (fun r => r.map renderChars)).map
          (fun r => encodeRow delim r)).flatten := by
  unfold csvText stream_csv_rows
  simp only [List.map_cons, List.flatten_cons]
  congr 1
  rw [flatten_map_flatten (fetchBatches B all_rows)
    (fun r => encodeRow delim (r.map renderChars))]
  rw [fetchBatches_flatten B hB]
  simp [List.map_map, Function.comp_def]

theorem length_le_flatten_encodeRow (delim : Char) (rss : List (List (List Char))) :
    rss.length ≤ ((rss.map (fun r => encodeRow delim r)).flatten).length := by
  induction rss with
  | nil => simp
  | cons r rss' ih =>
    simp only [List.map_cons, List.flatten_cons, List.length_append, List.length_cons]
    have := encodeRow_length_ge delim r
    omega

/-- C1 (amended): for every result set (including the empty one), every
non-empty column-name list, rows aligned with the columns, every batch size
`B > 0`, and every single-character delimiter other than the quote character
`"` and the newline characters CR/LF, the delimited-text encoder's
concatenated output parses back, with a standard CSV parser using the same
delimiter, to the original column names (row 1) followed by all row values in
order, null rendered as the empty field.  (The unamended claim, quantifying
over every single-character delimiter, fails for the delimiter `"`: see the
counterexample.) -/
theorem stream_csv_roundtrip (column_names : List String) (all_rows : List (List Value))
    (delim : Char) (B : Nat)
    (hq : delim ≠ '"') (hr : delim ≠ '\r') (hn : delim ≠ '\n')
    (hcols : column_names ≠ []) (hrows : ∀ r ∈ all_rows, r ≠ []) (hB : 0 < B) :
    parseCSV delim (csvText column_names all_rows delim B)
      = column_names :: all_rows.map (fun r => r.map renderCsvField) := by
  rw [csvText_eq _ _ _ _ hB, parseCSV]
  set rss : List (List (List Char)) :=
    (column_names.map String.data) :: all_rows.map (fun r => r.map renderChars) with hrss
  have hne : ∀ r ∈ rss, r ≠ [] := by
    intro r hmem
    rw [hrss] at hmem
    rcases List.mem_cons.mp hmem with h | h
    · subst h
      intro hcon
      exact hcols (List.map_eq_nil_iff.mp hcon)
    · rcases List.mem_map.mp h with ⟨row, hrow, hr2⟩
      subst hr2
      intro hcon
      exact hrows row hrow (List.map_eq_nil_iff.mp hcon)
  have hfuel : rss.length ≤ ((rss.map (fun r => encodeRow delim r)).flatten).length + 1 := by
    have := length_le_flatten_encodeRow delim rss
    omega
  rw [parseRecords_rows delim hq hr hn rss _ hne hfuel]
  rw [hrss]
  simp only [List.map_cons, List.map_map]
  have hcomp1 : (String.mk ∘ String.data) = fun s => s :=
    funext (fun s => String_mk_data s)
  have hcomp2 : ((fun r => List.map String.mk r) ∘ fun r : List Value => List.map renderChars r)
      = fun r : List Value => List.map renderCsvField r := by
    funext r
    simp only [Function.comp_apply, List.map_map]
    rfl
  rw [hcomp1, hcomp2]
  simp

/-- Witness for `stream_csv_roundtrip` at a concrete input: two columns, one
row containing the delimiter, a quote, and a null, delimiter `,`, batch
size 1. -/
theorem stream_csv_roundtrip_witness :
    parseCSV ','
        (csvText ["id", "name"]
          [[Value.intv 1, Value.text "A,b"], [Value.null, Value.text "q\"t"]] ',' 1)
      = [["id", "name"], ["1", "A,b"], ["", "q\"t"]] := by
  have h := stream_csv_roundtrip ["id", "name"]
    [[Value.intv 1, Value.text "A,b"], [Value.null, Value.text "q\"t"]] ',' 1
    (by decide) (by decide) (by decide) (by decide) (by decide) (by decide)
  rw [h]
  rfl

/-- Counterexample to C1 as stated: with the delimiter equal to the quote
character `"` (a single-character delimiter), the encoder's output for the
row `x"y`, `z` is `a"b\r\n"x""y""z\r\n`, which a standard CSV parser using
the same delimiter reads back as the single field `x"y"z` — the original
row values are not reproduced. -/
theorem stream_csv_roundtrip_cex :
    parseCSV '"' (csvText ["a", "b"] [[Value.text "x\"y", Value.text "z"]] '"' 10000)
      ≠ [["a", "b"], ["x\"y", "z"]] := by decide

/-- C4: for every result set of N rows (including N = 0) and every batch size
B > 0, the fetch loop produces exactly ceil(N/B) batches by repeatedly pulling
up to B rows until none remain; every batch is non-empty with at most B rows,
every batch except possibly the last has exactly B rows, the batch row counts
sum to exactly N, and the concatenation of the batches is the full result set
in original cursor order (hence no overlap). -/
theorem fetchBatches_spec (rows : List (List Value)) (B : Nat) (hB : 0 < B) :
    (fetchBatches B rows).length = (rows.length + B - 1) / B ∧
    (fetchBatches B rows).flatten = rows ∧
    ((fetchBatches B rows).map List.length).sum = rows.length ∧
    (∀ b ∈ (fetchBatches B rows).dropLast, b.length = B) ∧
    (∀ b ∈ fetchBatches B rows, b.length ≤ B ∧ b ≠ []) := by
  refine ⟨fetchBatches_count B hB rows, fetchBatches_flatten B hB rows, ?_,
    fetchBatches_dropLast B hB rows, fetchBatches_mem B hB rows⟩
  have hj := fetchBatches_flatten B hB rows
  calc ((fetchBatches B rows).map List.length).sum
      = (fetchBatches B rows).flatten.length := (List.length_flatten _).symm
    _ = rows.length := by rw [hj]

/-- Witness for `fetchBatches_spec`: five rows with batch size two give three
batches `[2, 2, 1]` that concatenate to the original result set. -/
theorem fetchBatches_spec_witness :
    (fetchBatches 2 [[Value.intv 1], [Value.intv 2], [Value.intv 3],
        [Value.intv 4], [Value.intv 5]]).flatten
      = [[Value.intv 1], [Value.intv 2], [Value.intv 3], [Value.intv 4], [Value.intv 5]] ∧
    (fetchBatches 2 [[Value.intv 1], [Value.intv 2], [Value.intv 3],
        [Value.intv 4], [Value.intv 5]]).length = 3 := by
  have h := fetchBatches_spec
    [[Value.intv 1], [Value.intv 2], [Value.intv 3], [Value.intv 4], [Value.intv 5]]
    2 (by decide)
  exact ⟨h.2.1, by rw [h.1]; rfl⟩

/-! ### The record-array (JSON) encoder

`stream_json_rows` (app.py lines 133-168) yields `"[\n"`, then for each row
`",\n"` (for every row but the first) and `"  " + json.dumps(row_dict,
ensure_ascii=False)` where `row_dict = {column_names[j]: row[j] for j in
range(len(column_names))}`, and finally `"\n]"`.  `json.dumps` with default
separators writes `{"k": v, "k2": v2}`, escaping `"` and `\`, the named
control escapes `\n \t \r \b \f`, and other control characters as `\u00xx`;
with `ensure_ascii=False` all other characters are literal. -/

/-- A JSON value (the forms relevant to the service's output). -/
inductive Json where
  | jnull
  | jint (n : Int)
  | jstr (s : String)
  | jarr (xs : List Json)
  | jobj (kvs : List (String × Json))

/-- The JSON rendering of a SQLite scalar. -/
def jsonOfValue : Value → Json
  | .text s => .jstr s
  | .intv n => .jint n
  | .null => .jnull

/-- Lower-case hexadecimal digit character, for `n < 16`. -/
def hexDigitChar (n : Nat) : Char :=
  if n < 10 then Char.ofNat (48 + n) else Char.ofNat (87 + n)

/-- The escape `json.dumps` (with `ensure_ascii=False`) applies to one
character of a string. -/
def escChar (c : Char) : List Char :=
  if c = '"' then ['\\', '"']
  else if c = '\\' then ['\\', '\\']
  else if c = '\n' then ['\\', 'n']
  else if c = '\t' then ['\\', 't']
  else if c = '\r' then ['\\', 'r']
  else if c = Char.ofNat 8 then ['\\', 'b']
  else if c = Char.ofNat 12 then ['\\', 'f']
  else if c.toNat < 32 then
    ['\\', 'u', '0', '0', hexDigitChar (c.toNat / 16), hexDigitChar (c.toNat % 16)]
  else [c]

/-- String-body escaping as `json.dumps` performs it. -/
def escapeStr : List Char → List Char
  | [] => []
  | c :: cs => escChar c ++ escapeStr cs

/-- Rendering of one scalar value, as `json.dumps`. -/
def dumpVal : Value → List Char
  | .null => ['n', 'u', 'l', 'l']
  | .intv n => intChars n
  | .text s => '"' :: (escapeStr s.data ++ ['"'])

/-- Rendering of one `"key": value` object member, as `json.dumps`. -/
def memberChars (kv : String × Value) : List Char :=
  '"' :: (escapeStr kv.1.data ++ ('"' :: ':' :: ' ' :: dumpVal kv.2))

/-- Rendering of a flat object with the given members, as `json.dumps` (default separators:
`", "` between members, `": "` inside one). -/
def objChars (kvs : List (String × Value)) : List Char :=
  '{' :: (joinSep [',', ' '] (kvs.map memberChars) ++ ['}'])

/-- One `k := v` update of a Python dict represented as an ordered
association list: an existing key keeps its position and gets the new value,
a fresh key is appended. -/
def dictSet : List (String × Value) → String → Value → List (String × Value)
  | [], k, v => [(k, v)]
  | (k', v') :: rest, k, v =>
    if k' = k then (k', v) :: rest else (k', v') :: dictSet rest k v

/-- The Python dict comprehension `{column_names[j]: row[j] for j in
range(len(column_names))}` as an ordered association list (insertion order,
duplicate keys collapsed to the last value at the first position). -/
def rowDict (column_names : List String) (r : List Value) : List (String × Value) :=
  (column_names.zip r).foldl (fun d kv => dictSet d kv.1 kv.2) []

/-- The chunks yielded by `stream_json_rows(all_rows, column_names)`. -/
def stream_json_rows (all_rows : List (List Value)) (column_names : List String) :
    List (List Char) :=
  ['[', '\n'] ::
    ((match all_rows with
      | [] => []
      | r :: rs =>
        (' ' :: ' ' :: objChars (rowDict column_names r)) ::
          rs.flatMap (fun r' => [[',', '\n'], ' ' :: ' ' :: objChars (rowDict column_names r')]))
      ++ [['\n', ']']])

/-- The full record-array output: the concatenation of all chunks. -/
def jsonText (all_rows : List (List Value)) (column_names : List String) : List Char :=
  (stream_json_rows all_rows column_names).flatten

/-! ### A standard JSON parser

An executable recursive-descent parser for the value forms the encoder can
emit (null, integers, strings with the standard escapes including `\uXXXX`,
arrays, objects), tolerant of whitespace in all the standard places.  The
fuel argument bounds the recursion depth; `parseJson` supplies ample fuel. -/

/-- JSON insignificant whitespace. -/
def isWs (c : Char) : Bool := c = ' ' || c = '\t' || c = '\n' || c = '\r'

/-- Skip insignificant whitespace. -/
def skipWs : List Char → List Char
  | [] => []
  | c :: cs => if isWs c then skipWs cs else c :: cs

/-- ASCII decimal digit test. -/
def isDigitChar (c : Char) : Bool := 48 ≤ c.toNat && c.toNat ≤ 57

/-- Hexadecimal digit value. -/
def hexVal (c : Char) : Option Nat :=
  if 48 ≤ c.toNat ∧ c.toNat ≤ 57 then some (c.toNat - 48)
  else if 97 ≤ c.toNat ∧ c.toNat ≤ 102 then some (c.toNat - 87)
  else if 65 ≤ c.toNat ∧ c.toNat ≤ 70 then some (c.toNat - 55)
  else none

/-- Decode a single-character string escape. -/
def escDecode (e : Char) : Option Char :=
  if e = '"' then some '"'
  else if e = '\\' then some '\\'
  else if e = '/' then some '/'
  else if e = 'n' then some '\n'
  else if e = 't' then some '\t'
  else if e = 'r' then some '\r'
  else if e = 'b' then some (Char.ofNat 8)
  else if e = 'f' then some (Char.ofNat 12)
  else none

/-- Parse a JSON string body after the opening quote, producing the decoded
characters and the rest of the input after the closing quote. -/
def parseStringBody : List Char → Option (List Char × List Char)
  | [] => none
  | c :: cs =>
    if c = '"' then some ([], cs)
    else if c = '\\' then
      match cs with
      | [] => none
      | e :: cs₂ =>
        if e = 'u' then
          match cs₂ with
          | h₁ :: h₂ :: h₃ :: h₄ :: cs₄ =>
            match hexVal h₁, hexVal h₂, hexVal h₃, hexVal h₄ with
            | some a, some b, some x, some y =>
              (parseStringBody cs₄).map
                (fun p => (Char.ofNat (((a * 16 + b) * 16 + x) * 16 + y) :: p.1, p.2))
            | _, _, _, _ => none
          | _ => none
        else
          match escDecode e with
          | some d => (parseStringBody cs₂).map (fun p => (d :: p.1, p.2))
          | none => none
    else (parseStringBody cs).map (fun p => (c :: p.1, p.2))

/-- Parse a run of decimal digits, accumulating their value. -/
def parseDigitsAux : List Char → Nat → Nat × List Char
  | [], acc => (acc, [])
  | c :: cs, acc =>
    if isDigitChar c then parseDigitsAux cs (acc * 10 + (c.toNat - 48))
    else (acc, c :: cs)

mutual

/-- Parse one JSON value (after optional whitespace). -/
def parseValue : Nat → List Char → Option (Json × List Char)
  | 0, _ => none
  | fuel+1, cs =>
    match skipWs cs with
    | [] => none
    | c :: cs' =>
      if c = 'n' then
        match cs' with
        | 'u' :: 'l' :: 'l' :: r => some (.jnull, r)
        | _ => none
      else if c = '"' then
        (parseStringBody cs').map (fun p => (.jstr (String.mk p.1), p.2))
      else if c = '-' then
        match cs' with
        | [] => none
        | d :: r =>
          if isDigitChar d then
            let p := parseDigitsAux (d :: r) 0
            some (.jint (-(p.1 : Int)), p.2)
          else none
      else if isDigitChar c then
        let p := parseDigitsAux (c :: cs') 0
        some (.jint (p.1 : Int), p.2)
      else if c = '[' then
        let t := skipWs cs'
        if t.head? = some ']' then some (.jarr [], t.tail)
        else (parseItems fuel cs').map (fun p => (.jarr p.1, p.2))
      else if c = '{' then
        let t := skipWs cs'
        if t.head? = some '}' then some (.jobj [], t.tail)
        else (parseMembers fuel cs').map (fun p => (.jobj p.1, p.2))
      else none

/-- Parse the comma-separated elements of a non-empty array, up to and
including the closing `]`. -/
def parseItems : Nat → List Char → Option (List Json × List Char)
  | 0, _ => none
  | fuel+1, cs =>
    match parseValue fuel cs with
    | none => none
    | some (v, r) =>
      match skipWs r with
      | [] => none
      | c :: r₂ =>
        if c = ',' then (parseItems fuel r₂).map (fun p => (v :: p.1, p.2))
        else if c = ']' then some ([v], r₂)
        else none

/-- Parse the comma-separated members of a non-empty object, up to and
including the closing `}`. -/
def parseMembers : Nat → List Char → Option (List (String × Json) × List Char)
  | 0, _ => none
  | fuel+1, cs =>
    match skipWs cs with
    | [] => none
    | c :: cs' =>
      if c = '"' then
        match parseStringBody cs' with
        | none => none
        | some (k, r) =>
          match skipWs r with
          | [] => none
          | c₂ :: r₂ =>
            if c₂ = ':' then
              match parseValue fuel r₂ with
              | none => none
              | some (v, r₃) =>
                match skipWs r₃ with
                | [] => none
                | c₃ :: r₄ =>
                  if c₃ = ',' then
                    (parseMembers fuel r₄).map (fun p => ((String.mk k, v) :: p.1, p.2))
                  else if c₃ = '}' then some ([(String.mk k, v)], r₄)
                  else none
            else none
      else none

end

/-- Parse a complete JSON document: one value with only whitespace after
it. -/
def parseJson (cs : List Char) : Option Json :=
  match parseValue (cs.length + 1) cs with
  | some (v, rest) => if (skipWs rest).isEmpty then some v else none
  | none => none

/-! ### Decimal rendering round-trip -/

theorem digitChar_toNat (m : Nat) (h : m < 10) : (digitChar m).toNat = 48 + m := by
  interval_cases m <;> rfl

theorem natToCharsAux_acc : ∀ (bound n fuel : Nat) (acc : List Char),
    n < bound → n < fuel →
    natToCharsAux fuel n acc = natToCharsAux (n + 1) n [] ++ acc := by
  intro bound
  induction bound with
  | zero => intro n fuel acc h _; omega
  | succ b ih =>
    intro n fuel acc _ hfuel
    cases fuel with
    | zero => omega
    | succ f =>
      by_cases h10 : n < 10
      · simp [natToCharsAux, h10]
      · have hdiv : n / 10 < n := Nat.div_lt_self (by omega) (by omega)
        have hnb : n ≤ b := by omega
        rw [natToCharsAux, if_neg h10]
        rw [ih (n / 10) f _ (by omega) (by omega)]
        conv_rhs =>
          rw [natToCharsAux, if_neg h10]
          rw [ih (n / 10) n _ (by omega) (by omega)]
        simp

theorem natToChars_lt (n : Nat) (h : n < 10) : natToChars n = [digitChar n] := by
  simp [natToChars, natToCharsAux, h]

theorem natToChars_ge (n : Nat) (h : ¬n < 10) :
    natToChars n = natToChars (n / 10) ++ [digitChar (n % 10)] := by
  have hdiv : n / 10 < n := Nat.div_lt_self (by omega) (by omega)
  show natToCharsAux (n + 1) n [] = natToChars (n / 10) ++ [digitChar (n % 10)]
  rw [natToCharsAux, if_neg h]
  rw [natToCharsAux_acc (n / 10 + 1) (n / 10) n _ (by omega) (by omega)]
  rfl

theorem natToChars_digits : ∀ (bound n : Nat), n < bound →
    ∀ c ∈ natToChars n, isDigitChar c = true := by
  intro bound
  induction bound with
  | zero => intro n h; omega
  | succ b ih =>
    intro n hn c hc
    by_cases h10 : n < 10
    · rw [natToChars_lt n h10] at hc
      simp at hc
      subst hc
      simp [isDigitChar, digitChar_toNat n h10]
      omega
    · rw [natToChars_ge n h10] at hc
      have hdiv : n / 10 < n := Nat.div_lt_self (by omega) (by omega)
      rcases List.mem_append.mp hc with h | h
      · exact ih (n / 10) (by omega) c h
      · simp at h
        subst h
        have hm : n % 10 < 10 := Nat.mod_lt _ (by omega)
        simp [isDigitChar, digitChar_toNat _ hm]
        omega

theorem natToChars_ne_nil (n : Nat) : natToChars n ≠ [] := by
  by_cases h10 : n < 10
  · rw [natToChars_lt n h10]; simp
  · rw [natToChars_ge n h10]; simp

theorem foldl_natToChars : ∀ (bound n : Nat), n < bound → ∀ (acc : Nat),
    (natToChars n).foldl (fun a c => a * 10 + (c.toNat - 48)) acc
      = acc * 10 ^ (natToChars n).length + n := by
  intro bound
  induction bound with
  | zero => intro n h; omega
  | succ b ih =>
    intro n hn acc
    by_cases h10 : n < 10
    · rw [natToChars_lt n h10]
      simp [List.foldl, digitChar_toNat n h10]
    · have hdiv : n / 10 < n := Nat.div_lt_self (by omega) (by omega)
      have hm : n % 10 < 10 := Nat.mod_lt _ (by omega)
      have hdm : n / 10 * 10 + n % 10 = n := by omega
      rw [natToChars_ge n h10, List.foldl_append, ih (n / 10) (by omega) acc]
      simp only [List.foldl, digitChar_toNat _ hm, List.length_append, List.length_cons,
        List.length_nil]
      have h48 : 48 + n % 10 - 48 = n % 10 := by omega
      rw [h48, pow_succ]
      calc (acc * 10 ^ (natToChars (n / 10)).length + n / 10) * 10 + n % 10
          = acc * (10 ^ (natToChars (n / 10)).length * 10) + (n / 10 * 10 + n % 10) := by ring
        _ = acc * (10 ^ (natToChars (n / 10)).length * 10) + n := by rw [hdm]

theorem parseDigitsAux_append : ∀ (ds : List Char) (rest : List Char) (acc : Nat),
    (∀ c ∈ ds, isDigitChar c = true) →
    (∀ c, rest.head? = some c → isDigitChar c = false) →
    parseDigitsAux (ds ++ rest) acc
      = (ds.foldl (fun a c => a * 10 + (c.toNat - 48)) acc, rest) := by
  intro ds
  induction ds with
  | nil =>
    intro rest acc _ hrest
    cases rest with
    | nil => rfl
    | cons c r =>
      have := hrest c rfl
      simp [parseDigitsAux, this]
  | cons c ds' ih =>
    intro rest acc hds hrest
    have hc := hds c (List.mem_cons_self c ds')
    simp only [List.cons_append, parseDigitsAux, hc, if_pos]
    exact ih rest _ (fun x hx => hds x (List.mem_cons_of_mem c hx)) hrest

theorem parseNat_append (n : Nat) (rest : List Char)
    (hrest : ∀ c, rest.head? = some c → isDigitChar c = false) :
    parseDigitsAux (natToChars n ++ rest) 0 = (n, rest) := by
  rw [parseDigitsAux_append _ _ _ (natToChars_digits (n + 1) n (by omega)) hrest]
  rw [foldl_natToChars (n + 1) n (by omega)]
  simp

/-! ### JSON parser round-trip: whitespace, classes, strings -/

theorem skipWs_not (c : Char) (cs : List Char) (h : isWs c = false) :
    skipWs (c :: cs) = c :: cs := by simp [skipWs, h]

theorem skipWs_ws (c : Char) (cs : List Char) (h : isWs c = true) :
    skipWs (c :: cs) = skipWs cs := by simp [skipWs, h]

theorem parseValue_ws (f : Nat) (c : Char) (cs : List Char) (h : isWs c = true) :
    parseValue f (c :: cs) = parseValue f cs := by
  cases f with
  | zero => rfl
  | succ g =>
    simp only [parseValue]
    rw [skipWs_ws c cs h]

theorem parseItems_ws (f : Nat) (c : Char) (cs : List Char) (h : isWs c = true) :
    parseItems f (c :: cs) = parseItems f cs := by
  cases f with
  | zero => rfl
  | succ g =>
    simp only [parseItems]
    rw [parseValue_ws g c cs h]

theorem parseMembers_ws (f : Nat) (c : Char) (cs : List Char) (h : isWs c = true) :
    parseMembers f (c :: cs) = parseMembers f cs := by
  cases f with
  | zero => rfl
  | succ g =>
    simp only [parseMembers]
    rw [skipWs_ws c cs h]

theorem digit_ne (c d : Char) (h : isDigitChar c = true) (hd : isDigitChar d = false) :
    c ≠ d := by
  intro he
  rw [he, hd] at h
  exact absurd h (by simp)

theorem digit_not_ws (c : Char) (h : isDigitChar c = true) : isWs c = false := by
  simp only [isDigitChar, Bool.and_eq_true, decide_eq_true_eq] at h
  simp only [isWs, Bool.or_eq_false_iff, decide_eq_false_iff_not]
  refine ⟨⟨⟨?_, ?_⟩, ?_⟩, ?_⟩ <;> (intro he; rw [he] at h; exact absurd h (by decide))

theorem hexVal_hexDigitChar (m : Nat) (h : m < 16) :
    hexVal (hexDigitChar m) = some m := by
  interval_cases m <;> rfl

theorem parseStringBody_escape : ∀ (s rest : List Char),
    parseStringBody (escapeStr s ++ '"' :: rest) = some (s, rest) := by
  intro s
  induction s with
  | nil =>
    intro rest
    show parseStringBody ('"' :: rest) = _
    rw [parseStringBody.eq_def]
    simp
  | cons c s ih =>
    intro rest
    show parseStringBody ((escChar c ++ escapeStr s) ++ '"' :: rest) = _
    rw [List.append_assoc]
    by_cases h1 : c = '"'
    · subst h1
      show parseStringBody ('\\' :: '"' :: (escapeStr s ++ '"' :: rest)) = _
      rw [parseStringBody.eq_def]
      simp [escDecode, ih]
    · by_cases h2 : c = '\\'
      · subst h2
        show parseStringBody ('\\' :: '\\' :: (escapeStr s ++ '"' :: rest)) = _
        rw [parseStringBody.eq_def]
        simp [escDecode, ih]
      · by_cases h3 : c = '\n'
        · subst h3
          show parseStringBody ('\\' :: 'n' :: (escapeStr s ++ '"' :: rest)) = _
          rw [parseStringBody.eq_def]
          simp [escDecode, ih]
        · by_cases h4 : c = '\t'
          · subst h4
            show parseStringBody ('\\' :: 't' :: (escapeStr s ++ '"' :: rest)) = _
            rw [parseStringBody.eq_def]
            simp [escDecode, ih]
          · by_cases h5 : c = '\r'
            · subst h5
              show parseStringBody ('\\' :: 'r' :: (escapeStr s ++ '"' :: rest)) = _
              rw [parseStringBody.eq_def]
              simp [escDecode, ih]
            · by_cases h6 : c = Char.ofNat 8
              · subst h6
                show parseStringBody ('\\' :: 'b' :: (escapeStr s ++ '"' :: rest)) = _
                rw [parseStringBody.eq_def]
                simp [escDecode, ih]
              · by_cases h7 : c = Char.ofNat 12
                · subst h7
                  show parseStringBody ('\\' :: 'f' :: (escapeStr s ++ '"' :: rest)) = _
                  rw [parseStringBody.eq_def]
                  simp [escDecode, ih]
                · by_cases hctrl : c.toNat < 32
                  · have hesc : escChar c
                        = ['\\', 'u', '0', '0', hexDigitChar (c.toNat / 16),
                           hexDigitChar (c.toNat % 16)] := by
                      simp [escChar, h1, h2, h3, h4, h5, h6, h7, hctrl]
                    rw [hesc]
                    show parseStringBody ('\\' :: 'u' :: '0' :: '0'
                        :: hexDigitChar (c.toNat / 16) :: hexDigitChar (c.toNat % 16)
                        :: (escapeStr s ++ '"' :: rest)) = _
                    rw [parseStringBody.eq_def]
                    have hv1 : hexVal (hexDigitChar (c.toNat / 16)) = some (c.toNat / 16) :=
                      hexVal_hexDigitChar _ (by omega)
                    have hv2 : hexVal (hexDigitChar (c.toNat % 16)) = some (c.toNat % 16) :=
                      hexVal_hexDigitChar _ (by omega)
                    have h0 : hexVal '0' = some 0 := rfl
                    have hmod : c.toNat / 16 * 16 + c.toNat % 16 = c.toNat := by omega
                    simp [h0, hv1, hv2, ih, hmod, Char.ofNat_toNat]
                  · have hesc : escChar c = [c] := by
                      simp [escChar, h1, h2, h3, h4, h5, h6, h7, hctrl]
                    rw [hesc]
                    show parseStringBody (c :: (escapeStr s ++ '"' :: rest)) = _
                    rw [parseStringBody.eq_def]
                    simp [h1, h2, ih]

theorem parseValue_dumpVal (v : Value) (g : Nat) (rest : List Char)
    (hrest : ∀ c, rest.head? = some c → isDigitChar c = false) :
    parseValue (g + 1) (dumpVal v ++ rest) = some (jsonOfValue v, rest) := by
  cases v with
  | null =>
    show parseValue (g + 1) ('n' :: 'u' :: 'l' :: 'l' :: rest) = _
    simp only [parseValue]
    rw [skipWs_not 'n' _ (by decide)]
    simp [jsonOfValue]
  | text s =>
    have hshape : dumpVal (.text s) ++ rest = '"' :: (escapeStr s.data ++ '"' :: rest) := by
      simp [dumpVal]
    rw [hshape]
    simp only [parseValue]
    rw [skipWs_not '"' _ (by decide)]
    simp [parseStringBody_escape s.data rest, jsonOfValue, String_mk_data]
  | intv n =>
    cases n with
    | ofNat m =>
      obtain ⟨d, ds, hds⟩ : ∃ d ds, natToChars m = d :: ds := by
        cases hx : natToChars m with
        | nil => exact absurd hx (natToChars_ne_nil m)
        | cons d ds => exact ⟨d, ds, rfl⟩
      have hd : isDigitChar d = true :=
        natToChars_digits (m + 1) m (by omega) d (by rw [hds]; exact List.mem_cons_self d ds)
      show parseValue (g + 1) (natToChars m ++ rest) = _
      rw [hds]
      show parseValue (g + 1) (d :: (ds ++ rest)) = _
      simp only [parseValue]
      rw [skipWs_not d _ (digit_not_ws d hd)]
      have hn : d ≠ 'n' := digit_ne d 'n' hd (by decide)
      have hq : d ≠ '"' := digit_ne d '"' hd (by decide)
      have hm : d ≠ '-' := digit_ne d '-' hd (by decide)
      have hrw : d :: (ds ++ rest) = natToChars m ++ rest := by rw [hds]; rfl
      simp only [hn, hq, hm, hd, if_false, if_true, if_neg, if_pos]
      rw [hrw, parseNat_append m rest hrest]
      simp [jsonOfValue]
    | negSucc k =>
      obtain ⟨d, ds, hds⟩ : ∃ d ds, natToChars (k + 1) = d :: ds := by
        cases hx : natToChars (k + 1) with
        | nil => exact absurd hx (natToChars_ne_nil (k + 1))
        | cons d ds => exact ⟨d, ds, rfl⟩
      have hd : isDigitChar d = true :=
        natToChars_digits (k + 2) (k + 1) (by omega) d
          (by rw [hds]; exact List.mem_cons_self d ds)
      show parseValue (g + 1) ('-' :: (natToChars (k + 1) ++ rest)) = _
      rw [hds]
      show parseValue (g + 1) ('-' :: d :: (ds ++ rest)) = _
      simp only [parseValue]
      rw [skipWs_not '-' _ (by decide)]
      have hrw : d :: (ds ++ rest) = natToChars (k + 1) ++ rest := by rw [hds]; rfl
      simp [hd]
      rw [hrw, parseNat_append (k + 1) rest hrest]
      have hval : (-(((k + 1 : Nat)) : Int)) = Int.negSucc k := by
        rw [Int.negSucc_eq]; push_cast; ring
      simp only [jsonOfValue]
      rw [hval]
      simp

theorem memberChars_shape (kv : String × Value) (suffix : List Char) :
    memberChars kv ++ suffix
      = '"' :: (escapeStr kv.1.data ++ '"' :: (':' :: ' ' :: (dumpVal kv.2 ++ suffix))) := by
  simp [memberChars]

theorem parseMembers_joinSep :
    ∀ (kvs : List (String × Value)) (g : Nat) (rest : List Char), kvs ≠ [] →
      kvs.length + 1 ≤ g + 1 →
      parseMembers (g + 1) (joinSep [',', ' '] (kvs.map memberChars) ++ '}' :: rest)
        = some (kvs.map (fun kv => (kv.1, jsonOfValue kv.2)), rest) := by
  intro kvs
  induction kvs with
  | nil => intro g rest hne; exact absurd rfl hne
  | cons kv kvs' ih =>
    intro g rest _ hfuel
    have hg : 1 ≤ g := by simp at hfuel; omega
    obtain ⟨g', rfl⟩ : ∃ g', g = g' + 1 := ⟨g - 1, by omega⟩
    cases kvs' with
    | nil =>
      have hone : joinSep [',', ' '] ([kv].map memberChars) = memberChars kv := rfl
      rw [hone, memberChars_shape kv ('}' :: rest)]
      have hsb := parseStringBody_escape kv.1.data
        (':' :: ' ' :: (dumpVal kv.2 ++ '}' :: rest))
      have hsw1 : skipWs (':' :: ' ' :: (dumpVal kv.2 ++ '}' :: rest))
          = ':' :: ' ' :: (dumpVal kv.2 ++ '}' :: rest) := skipWs_not _ _ (by decide)
      have hpvw := parseValue_ws (g' + 1) ' ' (dumpVal kv.2 ++ '}' :: rest) (by decide)
      have hpv := parseValue_dumpVal kv.2 g' ('}' :: rest)
        (fun c hc => by simp at hc; subst hc; decide)
      have hsw2 : skipWs ('}' :: rest) = '}' :: rest := skipWs_not _ _ (by decide)
      simp only [parseMembers]
      rw [skipWs_not '"' _ (by decide)]
      simp [hsb, hsw1, hpvw, hpv, hsw2, String_mk_data]
    | cons kv₂ kvs₂ =>
      have hjoin : joinSep [',', ' '] ((kv :: kv₂ :: kvs₂).map memberChars)
          = memberChars kv ++ ([',', ' ']
            ++ joinSep [',', ' '] ((kv₂ :: kvs₂).map memberChars)) := rfl
      set J := joinSep [',', ' '] ((kv₂ :: kvs₂).map memberChars) with hJ
      have hshape : (memberChars kv ++ ([',', ' '] ++ J)) ++ '}' :: rest
          = memberChars kv ++ (',' :: ' ' :: (J ++ '}' :: rest)) := by
        simp
      rw [hjoin, hshape, memberChars_shape kv]
      have hsb := parseStringBody_escape kv.1.data
        (':' :: ' ' :: (dumpVal kv.2 ++ ',' :: ' ' :: (J ++ '}' :: rest)))
      have hsw1 : skipWs (':' :: ' ' :: (dumpVal kv.2 ++ ',' :: ' ' :: (J ++ '}' :: rest)))
          = ':' :: ' ' :: (dumpVal kv.2 ++ ',' :: ' ' :: (J ++ '}' :: rest)) :=
        skipWs_not _ _ (by decide)
      have hpvw := parseValue_ws (g' + 1) ' '
        (dumpVal kv.2 ++ ',' :: ' ' :: (J ++ '}' :: rest)) (by decide)
      have hpv := parseValue_dumpVal kv.2 g' (',' :: ' ' :: (J ++ '}' :: rest))
        (fun c hc => by simp at hc; subst hc; decide)
      have hsw2 : skipWs (',' :: ' ' :: (J ++ '}' :: rest))
          = ',' :: ' ' :: (J ++ '}' :: rest) := skipWs_not _ _ (by decide)
      have hmw := parseMembers_ws (g' + 1) ' ' (J ++ '}' :: rest) (by decide)
      have hrec := ih g' rest (List.cons_ne_nil _ _) (by simp at hfuel ⊢; omega)
      simp only [parseMembers]
      rw [skipWs_not '"' _ (by decide)]
      simp [hsb, hsw1, hpvw, hpv, hsw2, String_mk_data]
      show parseMembers (g' + 1) (' ' :: (J ++ '}' :: rest)) = _
      rw [hmw, hrec]
      simp

theorem joinSep_members_head (kv : String × Value) (kvs' : List (String × Value)) :
    ∃ tl, joinSep [',', ' '] ((kv :: kvs').map memberChars) = '"' :: tl := by
  cases kvs' with
  | nil => exact ⟨escapeStr kv.1.data ++ ('"' :: ':' :: ' ' :: dumpVal kv.2), rfl⟩
  | cons kv₂ kvs₂ =>
    exact ⟨(escapeStr kv.1.data ++ ('"' :: ':' :: ' ' :: dumpVal kv.2))
      ++ ([',', ' '] ++ joinSep [',', ' '] ((kv₂ :: kvs₂).map memberChars)), rfl⟩

theorem parseValue_objChars (kvs : List (String × Value)) (g : Nat) (rest : List Char)
    (hfuel : kvs.length + 1 ≤ g) :
    parseValue (g + 1) (objChars kvs ++ rest)
      = some (.jobj (kvs.map (fun kv => (kv.1, jsonOfValue kv.2))), rest) := by
  cases kvs with
  | nil =>
    show parseValue (g + 1) ('{' :: '}' :: rest) = some (Json.jobj [], rest)
    simp only [parseValue]
    rw [skipWs_not '{' _ (by decide)]
    have hsw : skipWs ('}' :: rest) = '}' :: rest := skipWs_not _ _ (by decide)
    simp [hsw, (by decide : isDigitChar '{' = false)]
  | cons kv kvs' =>
    obtain ⟨g', rfl⟩ : ∃ g', g = g' + 1 := ⟨g - 1, by simp at hfuel; omega⟩
    obtain ⟨tl, htl⟩ := joinSep_members_head kv kvs'
    have hshape : objChars (kv :: kvs') ++ rest = '{' :: ('"' :: (tl ++ '}' :: rest)) := by
      show '{' :: (joinSep [',', ' '] ((kv :: kvs').map memberChars) ++ ['}']) ++ rest = _
      rw [htl]
      simp
    rw [hshape]
    have hsw : skipWs ('"' :: (tl ++ '}' :: rest)) = '"' :: (tl ++ '}' :: rest) :=
      skipWs_not _ _ (by decide)
    have hmem := parseMembers_joinSep (kv :: kvs') g' rest (List.cons_ne_nil _ _)
      (by simpa using hfuel)
    rw [htl] at hmem
    simp only [List.cons_append] at hmem
    simp only [parseValue]
    rw [skipWs_not '{' _ (by decide)]
    simp [hsw, hmem, (by decide : isDigitChar '{' = false)]

theorem parseItems_objs :
    ∀ (ms : List (List (String × Value))) (g : Nat) (rest : List Char), ms ≠ [] →
      (∀ m ∈ ms, m.length + ms.length + 1 ≤ g) →
      parseItems (g + 1)
          (joinSep [',', '\n'] (ms.map (fun m => ' ' :: ' ' :: objChars m))
            ++ '\n' :: ']' :: rest)
        = some (ms.map (fun m => Json.jobj (m.map (fun kv => (kv.1, jsonOfValue kv.2)))), rest) := by
  intro ms
  induction ms with
  | nil => intro g rest hne; exact absurd rfl hne
  | cons m ms' ih =>
    intro g rest _ hfuel
    have hm := hfuel m (List.mem_cons_self m ms')
    obtain ⟨g', rfl⟩ : ∃ g', g = g' + 1 := ⟨g - 1, by omega⟩
    cases ms' with
    | nil =>
      show parseItems (g' + 1 + 1)
          ((' ' :: ' ' :: objChars m) ++ '\n' :: ']' :: rest) = _
      have hw1 := parseValue_ws (g' + 1) ' '
        (' ' :: (objChars m ++ '\n' :: ']' :: rest)) (by decide)
      have hw2 := parseValue_ws (g' + 1) ' ' (objChars m ++ '\n' :: ']' :: rest) (by decide)
      have hobj := parseValue_objChars m g' ('\n' :: ']' :: rest)
        (by simp at hm; omega)
      have hsw : skipWs ('\n' :: ']' :: rest) = ']' :: rest := by
        rw [skipWs_ws _ _ (by decide), skipWs_not _ _ (by decide)]
      simp only [parseItems]
      simp [hw1, hw2, hobj, hsw]
    | cons m₂ ms₂ =>
      set J := joinSep [',', '\n'] ((m₂ :: ms₂).map (fun m => ' ' :: ' ' :: objChars m))
        with hJ
      have hjoin : joinSep [',', '\n'] ((m :: m₂ :: ms₂).map (fun m => ' ' :: ' ' :: objChars m))
          = (' ' :: ' ' :: objChars m) ++ ([',', '\n'] ++ J) := rfl
      have hshape : ((' ' :: ' ' :: objChars m) ++ ([',', '\n'] ++ J)) ++ '\n' :: ']' :: rest
          = ' ' :: ' ' :: (objChars m ++ ',' :: '\n' :: (J ++ '\n' :: ']' :: rest)) := by
        simp
      rw [hjoin, hshape]
      have hw1 := parseValue_ws (g' + 1) ' '
        (' ' :: (objChars m ++ ',' :: '\n' :: (J ++ '\n' :: ']' :: rest))) (by decide)
      have hw2 := parseValue_ws (g' + 1) ' '
        (objChars m ++ ',' :: '\n' :: (J ++ '\n' :: ']' :: rest)) (by decide)
      have hobj := parseValue_objChars m g' (',' :: '\n' :: (J ++ '\n' :: ']' :: rest))
        (by simp at hm; omega)
      have hsw : skipWs (',' :: '\n' :: (J ++ '\n' :: ']' :: rest))
          = ',' :: '\n' :: (J ++ '\n' :: ']' :: rest) := skipWs_not _ _ (by decide)
      have hfuel' : ∀ m' ∈ m₂ :: ms₂, m'.length + (m₂ :: ms₂).length + 1 ≤ g' := by
        intro m' hm'
        have := hfuel m' (List.mem_cons_of_mem m hm')
        simp at this ⊢
        omega
      have hrec := ih g' rest (List.cons_ne_nil _ _) hfuel'
      simp only [parseItems]
      simp [hw1, hw2, hobj, hsw]
      show parseItems (g' + 1) ('\n' :: (J ++ '\n' :: ']' :: rest)) = _
      rw [parseItems_ws (g' + 1) '\n' _ (by decide), hrec]
      simp

theorem joinSep_length_ge_gen (sep : List Char) (hs : 1 ≤ sep.length) :
    ∀ (xs : List (List Char)), xs.length - 1 ≤ (joinSep sep xs).length := by
  intro xs
  induction xs with
  | nil => simp [joinSep]
  | cons x ys ih =>
    cases ys with
    | nil => simp [joinSep]
    | cons y ys' =>
      rw [joinSep]
      simp only [List.length_cons, List.length_append] at ih ⊢
      omega

theorem joinSep_ge_mem (sep : List Char) (hs : 1 ≤ sep.length) :
    ∀ (xs : List (List Char)), ∀ x ∈ xs,
      x.length + (xs.length - 1) ≤ (joinSep sep xs).length := by
  intro xs
  induction xs with
  | nil => intro x hx; simp at hx
  | cons z ys ih =>
    intro x hx
    cases ys with
    | nil =>
      simp at hx
      subst hx
      simp [joinSep]
    | cons y ys' =>
      rw [joinSep]
      rcases List.mem_cons.mp hx with h | h
      · subst h
        have := joinSep_length_ge_gen sep hs (y :: ys')
        simp only [List.length_cons, List.length_append] at this ⊢
        omega
      · have := ih x h
        simp only [List.length_cons, List.length_append] at this ⊢
        omega

theorem objChars_length_ge (m : List (String × Value)) :
    m.length + 1 ≤ (objChars m).length := by
  have h := joinSep_length_ge_gen [',', ' '] (by simp) (m.map memberChars)
  simp only [List.length_map] at h
  simp [objChars, List.length_append]
  omega

theorem chunks_flatten (f : List Value → List Char) :
    ∀ (rs : List (List Value)) (r : List Value),
      ((f r :: rs.flatMap (fun r' => [[',', '\n'], f r'])) ++ [['\n', ']']]).flatten
        = joinSep [',', '\n'] ((r :: rs).map f) ++ '\n' :: ']' :: [] := by
  intro rs
  induction rs with
  | nil =>
    intro r
    simp [joinSep]
  | cons r₂ rs₂ ih =>
    intro r
    have ih₂ := ih r₂
    show ((f r :: ([[',', '\n'], f r₂] ++ rs₂.flatMap (fun r' => [[',', '\n'], f r'])))
        ++ [['\n', ']']]).flatten = _
    have hjoin : joinSep [',', '\n'] ((r :: r₂ :: rs₂).map f)
        = f r ++ ([',', '\n'] ++ joinSep [',', '\n'] ((r₂ :: rs₂).map f)) := rfl
    rw [hjoin]
    simp only [List.cons_append, List.flatten_cons, List.append_assoc,
      List.nil_append] at ih₂ ⊢
    rw [ih₂]

theorem jsonText_cons (column_names : List String) (r : List Value) (rs : List (List Value)) :
    jsonText (r :: rs) column_names
      = '[' :: '\n' :: (joinSep [',', '\n']
          ((r :: rs).map (fun r' => ' ' :: ' ' :: objChars (rowDict column_names r')))
        ++ '\n' :: ']' :: []) := by
  show (['[', '\n'] ::
      (((' ' :: ' ' :: objChars (rowDict column_names r)) ::
        rs.flatMap (fun r' => [[',', '\n'], ' ' :: ' ' :: objChars (rowDict column_names r')]))
        ++ [['\n', ']']])).flatten = _
  rw [List.flatten_cons]
  rw [chunks_flatten (fun r' => ' ' :: ' ' :: objChars (rowDict column_names r')) rs r]
  rfl

theorem dictSet_fresh : ∀ (d : List (String × Value)) (k : String) (v : Value),
    (∀ kv ∈ d, kv.1 ≠ k) → dictSet d k v = d ++ [(k, v)] := by
  intro d
  induction d with
  | nil => intro k v _; rfl
  | cons kv₀ d' ih =>
    intro k v h
    have h₀ := h kv₀ (List.mem_cons_self kv₀ d')
    show (if kv₀.1 = k then (kv₀.1, v) :: d' else (kv₀.1, kv₀.2) :: dictSet d' k v) = _
    rw [if_neg h₀, ih k v (fun kv hkv => h kv (List.mem_cons_of_mem kv₀ hkv))]
    simp

theorem foldl_dictSet : ∀ (kvs d : List (String × Value)),
    (kvs.map Prod.fst).Nodup →
    (∀ kv ∈ d, ∀ kv' ∈ kvs, kv.1 ≠ kv'.1) →
    kvs.foldl (fun d kv => dictSet d kv.1 kv.2) d = d ++ kvs := by
  intro kvs
  induction kvs with
  | nil => intro d _ _; simp
  | cons kv kvs' ih =>
    intro d hnd hdj
    show kvs'.foldl (fun d kv => dictSet d kv.1 kv.2) (dictSet d kv.1 kv.2) = _
    have hfresh : ∀ kv'' ∈ d, kv''.1 ≠ kv.1 :=
      fun kv'' h'' => hdj kv'' h'' kv (List.mem_cons_self kv kvs')
    rw [dictSet_fresh d kv.1 kv.2 hfresh]
    have hnd' : (kvs'.map Prod.fst).Nodup := by
      simp only [List.map_cons, List.nodup_cons] at hnd
      exact hnd.2
    have hknotin : kv.1 ∉ kvs'.map Prod.fst := by
      simp only [List.map_cons, List.nodup_cons] at hnd
      exact hnd.1
    have hdj' : ∀ kv'' ∈ d ++ [(kv.1, kv.2)], ∀ kv' ∈ kvs', kv''.1 ≠ kv'.1 := by
      intro kv'' h'' kv' h'
      rcases List.mem_append.mp h'' with h'' | h''
      · exact hdj kv'' h'' kv' (List.mem_cons_of_mem kv h')
      · simp at h''
        subst h''
        intro hcon
        exact hknotin (hcon ▸ List.mem_map_of_mem Prod.fst h')
    rw [ih (d ++ [(kv.1, kv.2)]) hnd' hdj']
    simp

theorem rowDict_eq_zip (column_names : List String) (r : List Value)
    (hnd : column_names.Nodup) (hlen : column_names.length ≤ r.length) :
    rowDict column_names r = column_names.zip r := by
  unfold rowDict
  have hfst : (column_names.zip r).map Prod.fst = column_names :=
    List.map_fst_zip column_names r hlen
  have hnd' : ((column_names.zip r).map Prod.fst).Nodup := by rw [hfst]; exact hnd
  rw [foldl_dictSet (column_names.zip r) [] hnd' (by intro kv h; simp at h)]
  simp

theorem joinSep_cons_shape (sep : List Char) (x : List Char) (xs : List (List Char)) :
    ∃ u, joinSep sep (x :: xs) = x ++ u := by
  cases xs with
  | nil => exact ⟨[], by simp [joinSep]⟩
  | cons y ys => exact ⟨sep ++ joinSep sep (y :: ys), rfl⟩

/-- C2: for every result set of N rows (including N = 0) and every
duplicate-free column-name list aligned with the rows, the concatenation of
the chunks emitted by `stream_json_rows` is a syntactically valid JSON array
of length N: it parses (with a standard JSON parser) to exactly the array of
row objects, each object mapping the column names, in order, to the JSON
renderings of the row's values, with separators correct across all
boundaries and `[]`-equivalent output for N = 0. -/
theorem stream_json_parses (column_names : List String) (all_rows : List (List Value))
    (hnd : column_names.Nodup)
    (hlen : ∀ r ∈ all_rows, r.length = column_names.length) :
    parseJson (jsonText all_rows column_names)
      = some (Json.jarr (all_rows.map (fun r =>
          Json.jobj ((column_names.zip r).map (fun kv => (kv.1, jsonOfValue kv.2)))))) ∧
    (all_rows.map (fun r =>
        Json.jobj ((column_names.zip r).map (fun kv => (kv.1, jsonOfValue kv.2))))).length
      = all_rows.length := by
  refine ⟨?_, by simp⟩
  cases all_rows with
  | nil => rfl
  | cons r rs =>
    have hzipmap : ∀ r' ∈ r :: rs, rowDict column_names r' = column_names.zip r' := by
      intro r' hr'
      exact rowDict_eq_zip column_names r' hnd (le_of_eq (hlen r' hr').symm)
    set ms := (r :: rs).map (rowDict column_names) with hmsdef
    have hmsne : ms ≠ [] := by rw [hmsdef]; simp
    rw [jsonText_cons column_names r rs]
    have hmapform : (r :: rs).map (fun r' => ' ' :: ' ' :: objChars (rowDict column_names r'))
        = ms.map (fun m => ' ' :: ' ' :: objChars m) := by
      rw [hmsdef, List.map_map]
      rfl
    rw [hmapform]
    set JS := joinSep [',', '\n'] (ms.map (fun m => ' ' :: ' ' :: objChars m)) with hJS
    have hfuelms : ∀ m ∈ ms, m.length + ms.length + 1 ≤ JS.length + 3 := by
      intro m hm
      have hmem : (' ' :: ' ' :: objChars m) ∈ ms.map (fun m => ' ' :: ' ' :: objChars m) :=
        List.mem_map_of_mem _ hm
      have h1 := joinSep_ge_mem [',', '\n'] (by simp) _ _ hmem
      rw [← hJS] at h1
      have h2 := objChars_length_ge m
      simp only [List.length_map, List.length_cons] at h1
      omega
    have hheadJS : ∃ tl, JS ++ '\n' :: ']' :: [] = ' ' :: ' ' :: '{' :: tl := by
      obtain ⟨m₀, ms', hms0⟩ : ∃ m₀ ms', ms = m₀ :: ms' := by
        cases hmm : ms with
        | nil => exact absurd hmm hmsne
        | cons a b => exact ⟨a, b, rfl⟩
      rw [hJS, hms0]
      obtain ⟨u, hu⟩ := joinSep_cons_shape [',', '\n']
        (' ' :: ' ' :: objChars m₀) (ms'.map (fun m => ' ' :: ' ' :: objChars m))
      have : ((m₀ :: ms').map (fun m => ' ' :: ' ' :: objChars m))
          = (' ' :: ' ' :: objChars m₀) :: ms'.map (fun m => ' ' :: ' ' :: objChars m) := rfl
      rw [this, hu]
      exact ⟨(joinSep [',', ' '] (m₀.map memberChars) ++ ['}']) ++ (u ++ '\n' :: ']' :: []),
        by simp [objChars]⟩
    obtain ⟨tl, htl⟩ := hheadJS
    have hPV : ∀ f, (∀ m ∈ ms, m.length + ms.length + 2 ≤ f) →
        parseValue (f + 1) ('[' :: '\n' :: (JS ++ '\n' :: ']' :: []))
          = some (Json.jarr (ms.map (fun m =>
              Json.jobj (m.map (fun kv => (kv.1, jsonOfValue kv.2))))), []) := by
      intro f hf
      obtain ⟨m₀, hm₀⟩ := List.exists_mem_of_ne_nil ms hmsne
      obtain ⟨g, rfl⟩ : ∃ g, f = g + 1 := ⟨f - 1, by have h9 := hf m₀ hm₀; omega⟩
      have hf2 : ∀ m ∈ ms, m.length + ms.length + 1 ≤ g := by
        intro m hm
        have h9 := hf m hm
        omega
      have hskip : skipWs ('\n' :: ' ' :: ' ' :: '{' :: tl) = '{' :: tl := by
        rw [skipWs_ws _ _ (by decide), skipWs_ws _ _ (by decide),
          skipWs_ws _ _ (by decide), skipWs_not _ _ (by decide)]
      have hpi : parseItems (g + 1) (JS ++ '\n' :: ']' :: [])
          = some (ms.map (fun m =>
              Json.jobj (m.map (fun kv => (kv.1, jsonOfValue kv.2)))), []) := by
        rw [hJS]
        exact parseItems_objs ms g [] hmsne hf2
      have hpi2 : parseItems (g + 1) ('\n' :: ' ' :: ' ' :: '{' :: tl)
          = some (ms.map (fun m =>
              Json.jobj (m.map (fun kv => (kv.1, jsonOfValue kv.2)))), []) := by
        rw [parseItems_ws _ '\n' _ (by decide)]
        rw [show ' ' :: ' ' :: '{' :: tl = JS ++ '\n' :: ']' :: [] from htl.symm]
        exact hpi
      simp only [parseValue]
      rw [skipWs_not '[' _ (by decide)]
      rw [htl]
      simp [hskip, hpi2, (by decide : isDigitChar '[' = false)]
    show parseJson ('[' :: '\n' :: (JS ++ '\n' :: ']' :: [])) = _
    have hmaps : ms.map (fun m => Json.jobj (m.map (fun kv => (kv.1, jsonOfValue kv.2))))
        = (r :: rs).map (fun r' =>
            Json.jobj ((column_names.zip r').map (fun kv => (kv.1, jsonOfValue kv.2)))) := by
      rw [hmsdef, List.map_map]
      exact List.map_congr_left (fun r' hr' => by
        simp only [Function.comp_apply]
        rw [hzipmap r' hr'])
    have hPV2 := hPV (JS.length + 4)
      (by intro m hm; have h9 := hfuelms m hm; omega)
    rw [hmaps] at hPV2
    have hlen4 : ('[' :: '\n' :: (JS ++ '\n' :: ']' :: [])).length = JS.length + 4 := by
      simp [List.length_append]
    simp only [parseJson, hlen4, hPV2]
    simp [skipWs]

/-- Witness for `stream_json_parses` at a concrete input: two columns, two
rows containing an embedded newline, a null, and a negative integer. -/
theorem stream_json_parses_witness :
    parseJson (jsonText [[Value.intv 1, Value.text "x\ny"], [Value.null, Value.intv (-12)]]
        ["a", "b"])
      = some (Json.jarr [Json.jobj [("a", Json.jint 1), ("b", Json.jstr "x\ny")],
          Json.jobj [("a", Json.jnull), ("b", Json.jint (-12))]]) := by
  have h := stream_json_parses ["a", "b"]
    [[Value.intv 1, Value.text "x\ny"], [Value.null, Value.intv (-12)]]
    (by decide) (by decide)
  rw [h.1]
  rfl

/-! ### The `/query` endpoint pipeline

`query` embeds the handler of `app.py` lines 211-388 as a function of:

* `Config` — the environment-derived constants `QUERY_TIMEOUT` and
  `BATCH_SIZE`;
* `Env` — the behaviour of the outside world during this request: whether
  the database file exists (line 61), whether `sqlite3.connect` succeeds
  (line 66), whether the pragma setup after a successful connect succeeds
  (lines 69-76; a failure there is re-raised by `get_db_connection` with the
  freshly opened handle never stored in the handler's `conn` variable),
  whether the host provides `SIGALRM` (line 282), how long execution takes,
  and what execution returns (the cursor description and the fetched rows,
  a `sqlite3.Error`, or an unexpected exception).

The result is the handler's outcome — an error (the `HTTPException`s of the
source, tagged by `Err` with their status codes in `statusOf`) or a
`StreamingResult` carrying the generator's chunks plus media type and
filename — together with the trace of connection/execution/fetch events the
handler performed.  `fullTrace` appends the chunk emissions that happen when
the returned generator is consumed, after the handler has returned. -/

/-- A parsed request body (`QueryRequest`, app.py lines 31-34).  `delimiter`
and `format` are `Optional[str]` with defaults `","` and `"csv"`; an explicit
JSON `null` arrives as `none`. -/
structure QueryRequest where
  sql : String
  delimiter : Option String := some ","
  format : Option String := some "csv"

/-- Characters stripped by Python's `str.strip()` (the ASCII whitespace
subset, which covers every byte the HTTP layer can deliver in these
fields). -/
def pySpace (c : Char) : Bool :=
  c = ' ' || c = '\t' || c = '\n' || c = '\r' || c = Char.ofNat 11 || c = Char.ofNat 12

/-- Python `str.strip()`. -/
def pyStrip (s : String) : String :=
  String.mk (((s.data.dropWhile pySpace).reverse.dropWhile pySpace).reverse)

/-- ASCII upper-casing of one character, as `str.upper()` acts on ASCII. -/
def asciiUpper (c : Char) : Char :=
  if 97 ≤ c.toNat ∧ c.toNat ≤ 122 then Char.ofNat (c.toNat - 32) else c

/-- ASCII lower-casing of one character, as `str.lower()` acts on ASCII. -/
def asciiLower (c : Char) : Char :=
  if 65 ≤ c.toNat ∧ c.toNat ≤ 90 then Char.ofNat (c.toNat + 32) else c

/-- Python `str.upper()` (ASCII fragment). -/
def pyUpper (s : String) : String := String.mk (s.data.map asciiUpper)

/-- Python `str.lower()` (ASCII fragment). -/
def pyLower (s : String) : String := String.mk (s.data.map asciiLower)

/-- The guard of app.py line 260: `request.sql.strip().upper().startswith("SELECT")`. -/
def startsWithSelect (s : String) : Bool :=
  List.isPrefixOf "SELECT".data (pyUpper (pyStrip s)).data

/-- Format normalisation of app.py lines 241-242:
`str(request.format if request.format is not None else "csv").strip().lower()`. -/
def normFormat (fmt : Option String) : String := pyLower (pyStrip (fmt.getD "csv"))

/-- The error outcomes of the handler, i.e. its `HTTPException`s. -/
inductive Err where
  | invalidFormat
  | notSelect
  | notFound
  | timeout
  | noColumns
  | sqliteError
  | unexpected
deriving DecidableEq

/-- The HTTP status the boundary layer attaches to each error
(app.py lines 248, 262, 62, 293, 303, 382, 388). -/
def statusOf : Err → Nat
  | .invalidFormat => 400
  | .notSelect => 400
  | .notFound => 404
  | .timeout => 408
  | .noColumns => 400
  | .sqliteError => 400
  | .unexpected => 500

/-- The spec's `InvalidQuery` failure kind covers a non-SELECT statement or a
malformed `format` field (spec section 7). -/
def Err.isInvalidQuery : Err → Bool
  | .invalidFormat => true
  | .notSelect => true
  | _ => false

/-- What `cursor.execute(request.sql)` produces if it is allowed to finish:
a cursor description (column names; `none` models `cursor.description is
None`) and the rows the fetch loop will retrieve, or a `sqlite3.Error`, or
an unexpected exception. -/
inductive ExecResult where
  | ok (description : Option (List String)) (rows : List (List Value))
  | sqlErr
  | unexpectedErr

/-- The behaviour of the outside world during one request. -/
structure Env where
  dbExists : Bool
  connectOk : Bool
  pragmaOk : Bool
  hasSigalrm : Bool
  execDuration : Nat
  execResult : ExecResult

/-- The configuration constants of app.py lines 26-27. -/
structure Config where
  timeout : Nat
  batch : Nat

/-- Observable events of one request: connection opened/closed, execution
run, one `fetchmany` batch retrieved (with its row count), one chunk emitted
by the streaming generator (with its length), and a fault raised inside the
generator after streaming began. -/
inductive Ev where
  | connOpen
  | connClose
  | execRun
  | fetch (n : Nat)
  | emit (n : Nat)
  | streamFault
deriving DecidableEq

/-- A failure raised inside an encoding generator. -/
inductive StreamErr where
  | badDelimiter
deriving DecidableEq

/-- The streaming result handed to the boundary layer: the chunks the
generator will yield when consumed (or the error it will raise before
yielding anything), plus the response metadata. -/
structure StreamingResult where
  chunks : Except StreamErr (List (List Char))
  mediaType : String
  filename : String

/-- Request validation, in source order (app.py lines 241-265): the format
check precedes the SELECT check; both happen before any connection is
opened. -/
def validate (req : QueryRequest) : Except Err String :=
  let fmt := normFormat req.format
  if fmt = "csv" ∨ fmt = "json" then
    if startsWithSelect req.sql then .ok fmt else .error .notSelect
  else .error .invalidFormat

/-- Whether the `SIGALRM`-based timeout fires (app.py lines 42-56, 282-288):
only on hosts with `SIGALRM`, only for a positive alarm value
(`signal.alarm(0)` disables the alarm), and only if execution takes longer
than the budget. -/
def timeoutFires (cfg : Config) (env : Env) : Bool :=
  env.hasSigalrm && decide (0 < cfg.timeout) && decide (cfg.timeout < env.execDuration)

/-- The execute-plus-description phase (app.py lines 280-306). -/
def execPhase (cfg : Config) (env : Env) : Except Err (List String × List (List Value)) :=
  if timeoutFires cfg env then .error .timeout
  else
    match env.execResult with
    | .sqlErr => .error .sqliteError
    | .unexpectedErr => .error .unexpected
    | .ok none _ => .error .noColumns
    | .ok (some cols) rows => .ok (cols, rows)

/-- The chunks of the CSV generator as consumed by the boundary layer
(app.py lines 345-352): `csv.writer(output, delimiter=delimiter)` raises a
`TypeError` on first use unless the delimiter is a 1-character string, so a
bad delimiter fails inside the generator before any chunk is produced. -/
def csvGen (all_rows : List (List Value)) (column_names : List String)
    (delim : Option String) (B : Nat) : Except StreamErr (List (List Char)) :=
  match delim with
  | none => .error .badDelimiter
  | some s =>
    match s.data with
    | [c] => .ok (stream_csv_rows all_rows column_names c B)
    | _ => .error .badDelimiter

/-- Building the streaming response (app.py lines 333-370). -/
def buildResult (fmt : String) (delim : Option String) (column_names : List String)
    (all_rows : List (List Value)) (B : Nat) : StreamingResult :=
  if fmt = "json" then
    ⟨.ok (stream_json_rows all_rows column_names), "application/json", "query_result.json"⟩
  else
    ⟨csvGen all_rows column_names delim B, "text/csv", "query_result.csv"⟩

/-- One trace event per non-empty `fetchmany` batch. -/
def fetchEvents (B : Nat) (rows : List (List Value)) : List Ev :=
  (fetchBatches B rows).map (fun b => Ev.fetch b.length)

/-- The `/query` handler (app.py lines 211-388): validation, provisioning,
timed execution, the fetch loop, closing the connection, and constructing
the streaming response; every error path mirrors the source's exception
handlers (which close `conn` when — and only when — the handler's `conn`
variable holds a connection). -/
def query (cfg : Config) (env : Env) (req : QueryRequest) :
    Except Err StreamingResult × List Ev :=
  match validate req with
  | .error e => (.error e, [])
  | .ok fmt =>
    if env.dbExists then
      if env.connectOk then
        if env.pragmaOk then
          match execPhase cfg env with
          | .error e => (.error e, [.connOpen, .execRun, .connClose])
          | .ok (cols, rows) =>
            (.ok (buildResult fmt req.delimiter cols rows cfg.batch),
              .connOpen :: .execRun :: (fetchEvents cfg.batch rows ++ [.connClose]))
        else (.error .sqliteError, [.connOpen])
      else (.error .sqliteError, [])
    else (.error .notFound, [])

/-- The whole request's event trace: the handler's events followed by the
emissions of the returned generator when the boundary layer consumes it. -/
def fullTrace (cfg : Config) (env : Env) (req : QueryRequest) : List Ev :=
  let r := query cfg env req
  r.2 ++
    (match r.1 with
     | .ok sr =>
       match sr.chunks with
       | .ok cs => cs.map (fun c => Ev.emit c.length)
       | .error _ => [Ev.streamFault]
     | .error _ => [])

/-- Whether an outcome of the handler is a streaming response (rather than
an error). -/
def resultOk : Except Err StreamingResult → Bool
  | .ok _ => true
  | .error _ => false

/-- Whether the request's delimiter field is a one-character string (the
property `csv.writer` requires; the handler never checks it). -/
def delimIsChar : Option String → Bool
  | none => false
  | some s => s.data.length == 1

theorem count_fetchEvents (B : Nat) (rows : List (List Value)) (e : Ev)
    (h : ∀ n, e ≠ Ev.fetch n) : (fetchEvents B rows).count e = 0 := by
  rw [List.count_eq_zero]
  intro ha
  simp only [fetchEvents, List.mem_map] at ha
  obtain ⟨b, _, hba⟩ := ha
  exact h b.length hba.symm

/-- C3: for every request whose sql string, after stripping and upper-casing,
does not begin with `SELECT`, the handler fails with an `InvalidQuery`-class
error (status 400: a malformed format field or the non-SELECT rejection,
per the spec's taxonomy) and its event trace is empty — in particular no
connection is ever opened, and no such statement gets past validation. -/
theorem query_rejects_non_select (cfg : Config) (env : Env) (req : QueryRequest)
    (h : startsWithSelect req.sql = false) :
    (∃ e, (query cfg env req).1 = .error e ∧ e.isInvalidQuery = true) ∧
    (query cfg env req).2 = [] := by
  by_cases hfmt : (normFormat req.format = "csv" ∨ normFormat req.format = "json")
  · refine ⟨⟨.notSelect, ?_, rfl⟩, ?_⟩ <;> simp [query, validate, hfmt, h]
  · refine ⟨⟨.invalidFormat, ?_, rfl⟩, ?_⟩ <;> simp [query, validate, hfmt]

/-- Witness for `query_rejects_non_select`: a `DELETE` statement is rejected
with an empty trace. -/
theorem query_rejects_non_select_witness :
    startsWithSelect "DELETE FROM users" = false ∧
    ((∃ e, (query ⟨300, 10000⟩ ⟨true, true, true, true, 0, .ok (some ["id"]) []⟩
          ⟨"DELETE FROM users", some ",", some "csv"⟩).1 = .error e
        ∧ e.isInvalidQuery = true) ∧
      (query ⟨300, 10000⟩ ⟨true, true, true, true, 0, .ok (some ["id"]) []⟩
          ⟨"DELETE FROM users", some ",", some "csv"⟩).2 = []) :=
  ⟨by decide, query_rejects_non_select _ _ _ (by decide)⟩

/-- Counterexample to C5 as stated: if the pragma setup inside
`get_db_connection` fails after `sqlite3.connect` succeeded (lines 69-76 of
app.py, e.g. an I/O error applying `journal_mode=WAL`), the freshly opened
connection is never stored in the handler's `conn` variable, every exception
handler skips `conn.close()` (`conn` is still `None`), and the handle leaks:
a path on which a connection has been opened but is closed zero times. -/
theorem query_leak_cex :
    ((query ⟨300, 10000⟩ ⟨true, true, false, true, 0, .ok (some ["id"]) []⟩
        ⟨"SELECT 1", some ",", some "csv"⟩).2.count Ev.connOpen = 1) ∧
    ((query ⟨300, 10000⟩ ⟨true, true, false, true, 0, .ok (some ["id"]) []⟩
        ⟨"SELECT 1", some ",", some "csv"⟩).2.count Ev.connClose = 0) := by
  decide

/-- C5 (amended): on every execution path on which connection provisioning
completes (the pragma setup after the raw open does not fail), the number of
connection-close events equals the number of connection-open events — the
connection, when opened, is closed exactly once before the handler returns,
on success, timeout and every error path alike.  (A fault inside
provisioning after the raw open leaks the handle: see the
counterexample.) -/
theorem query_closes_connection (cfg : Config) (env : Env) (req : QueryRequest)
    (h : env.pragmaOk = true) :
    (query cfg env req).2.count Ev.connClose = (query cfg env req).2.count Ev.connOpen ∧
    (query cfg env req).2.count Ev.connOpen ≤ 1 := by
  unfold query
  cases hv : validate req with
  | error e => simp
  | ok fmt =>
    by_cases hdb : env.dbExists = true
    · by_cases hco : env.connectOk = true
      · cases hex : execPhase cfg env with
        | error e =>
          simp [hdb, hco, h, hex]
        | ok p =>
          obtain ⟨cols, rows⟩ := p
          simp only [hdb, hco, h, hex, if_true]
          have h1 := count_fetchEvents cfg.batch rows Ev.connClose (fun n => by simp)
          have h2 := count_fetchEvents cfg.batch rows Ev.connOpen (fun n => by simp)
          simp [List.count_cons, List.count_append, h1, h2]
      · simp [hdb, hco]
    · simp [hdb]

/-- Witness for `query_closes_connection`: a successful csv request opens and
closes the connection exactly once. -/
theorem query_closes_connection_witness :
    (⟨true, true, true, true, 0, .ok (some ["id"]) [[Value.intv 1]]⟩ : Env).pragmaOk = true ∧
    ((query ⟨300, 2⟩ ⟨true, true, true, true, 0, .ok (some ["id"]) [[Value.intv 1]]⟩
          ⟨"SELECT 1", some ",", some "csv"⟩).2.count Ev.connClose
        = (query ⟨300, 2⟩ ⟨true, true, true, true, 0, .ok (some ["id"]) [[Value.intv 1]]⟩
          ⟨"SELECT 1", some ",", some "csv"⟩).2.count Ev.connOpen ∧
      (query ⟨300, 2⟩ ⟨true, true, true, true, 0, .ok (some ["id"]) [[Value.intv 1]]⟩
          ⟨"SELECT 1", some ",", some "csv"⟩).2.count Ev.connOpen ≤ 1) :=
  ⟨rfl, query_closes_connection _ _ _ rfl⟩

/-- Counterexample to C6 as stated: on a host without `SIGALRM` (app.py line
282: Windows), a query whose execution takes 9999 seconds against a
300-second budget is not aborted — the handler logs a warning, executes with
no timeout, and returns a successful streaming response, so "every query
whose execution exceeds the configured deadline fails with Timeout" is false
on the code. -/
theorem query_timeout_skip_cex :
    resultOk (query ⟨300, 10000⟩ ⟨true, true, true, false, 9999, .ok (some ["id"]) []⟩
        ⟨"SELECT 1", some ",", some "json"⟩).1 = true ∧
    (⟨300, 10000⟩ : Config).timeout
      < (⟨true, true, true, false, 9999, .ok (some ["id"]) []⟩ : Env).execDuration := by
  decide

/-- C6 (amended): on hosts where the alarm signal is available and the
configured timeout is positive, every query whose execution exceeds the
deadline is aborted: the handler fails with `Err.timeout`, whose HTTP status
(408) is distinct from a generic execution error's (400), and the
connection is closed before the error surfaces (the trace is
open/execute/close). -/
theorem query_timeout_distinct (cfg : Config) (env : Env) (req : QueryRequest) (fmt : String)
    (hv : validate req = .ok fmt) (hdb : env.dbExists = true) (hco : env.connectOk = true)
    (hpr : env.pragmaOk = true) (hsig : env.hasSigalrm = true) (hpos : 0 < cfg.timeout)
    (hdur : cfg.timeout < env.execDuration) :
    (query cfg env req).1 = .error .timeout ∧
    statusOf .timeout ≠ statusOf .sqliteError ∧
    (query cfg env req).2 = [.connOpen, .execRun, .connClose] := by
  have htf : timeoutFires cfg env = true := by
    simp [timeoutFires, hsig, hpos, hdur]
  have hex : execPhase cfg env = .error .timeout := by
    simp [execPhase, htf]
  unfold query
  rw [hv]
  refine ⟨?_, by decide, ?_⟩ <;> simp [hdb, hco, hpr, hex]

/-- Witness for `query_timeout_distinct`: a 9999-second execution against a
300-second budget on a Unix host times out with status 408 and a closed
connection. -/
theorem query_timeout_distinct_witness :
    (query ⟨300, 10000⟩ ⟨true, true, true, true, 9999, .ok (some ["id"]) []⟩
        ⟨"SELECT 1", some ",", some "json"⟩).1 = .error .timeout ∧
    statusOf .timeout ≠ statusOf .sqliteError ∧
    (query ⟨300, 10000⟩ ⟨true, true, true, true, 9999, .ok (some ["id"]) []⟩
        ⟨"SELECT 1", some ",", some "json"⟩).2 = [.connOpen, .execRun, .connClose] :=
  query_timeout_distinct _ _ _ "json" rfl rfl rfl rfl rfl (by decide) (by decide)

/-- C7 is false on the code (the source fetches the entire result set before
any encoding): for a two-row result with batch size 1, the full request
trace shows both fetch events, then the connection close, and only then the
three chunk emissions (header and two one-row batches) — the second batch is
fetched before any encoded byte of the first has been emitted, and all rows
are resident before encoding begins. -/
theorem query_fetches_all_before_emit :
    fullTrace ⟨300, 1⟩ ⟨true, true, true, true, 0, .ok (some ["a"]) [[.intv 1], [.intv 2]]⟩
        ⟨"SELECT * FROM t", some ",", some "csv"⟩
      = [.connOpen, .execRun, .fetch 1, .fetch 1, .connClose,
         .emit 3, .emit 3, .emit 3] := by
  decide

/-- C8 is false on the code: on any host without `SIGALRM` the handler never
produces a timeout failure regardless of how long execution takes — timeout
enforcement is silently skipped (app.py lines 286-288), contradicting the
spec's requirement that enforcement is never silently disabled. -/
theorem query_no_timeout_without_sigalrm (cfg : Config) (env : Env) (req : QueryRequest)
    (h : env.hasSigalrm = false) :
    (query cfg env req).1 ≠ .error .timeout := by
  have htf : timeoutFires cfg env = false := by
    simp [timeoutFires, h]
  unfold query
  cases hv : validate req with
  | error e =>
    have he : e ≠ .timeout := by
      unfold validate at hv
      by_cases h1 : (normFormat req.format = "csv" ∨ normFormat req.format = "json")
      · rw [if_pos h1] at hv
        by_cases h2 : startsWithSelect req.sql = true
        · simp [h2] at hv
        · simp [h2] at hv
          rw [← hv]
          decide
      · rw [if_neg h1] at hv
        have : Err.invalidFormat = e := by
          simpa using hv
        rw [← this]
        decide
    simp [he]
  | ok fmt =>
    by_cases hdb : env.dbExists = true
    · by_cases hco : env.connectOk = true
      · by_cases hpr : env.pragmaOk = true
        · cases hres : env.execResult with
          | ok desc rows =>
            cases desc with
            | none => simp [hdb, hco, hpr, execPhase, htf, hres]
            | some cols => simp [hdb, hco, hpr, execPhase, htf, hres]
          | sqlErr => simp [hdb, hco, hpr, execPhase, htf, hres]
          | unexpectedErr => simp [hdb, hco, hpr, execPhase, htf, hres]
        · simp [hdb, hco, hpr]
      · simp [hdb, hco]
    · simp [hdb]

/-- Witness for `query_no_timeout_without_sigalrm` at a concrete input. -/
theorem query_no_timeout_without_sigalrm_witness :
    (⟨true, true, true, false, 9999, .ok (some ["id"]) []⟩ : Env).hasSigalrm = false ∧
    (query ⟨300, 10000⟩ ⟨true, true, true, false, 9999, .ok (some ["id"]) []⟩
        ⟨"SELECT 1", some ",", some "json"⟩).1 ≠ .error .timeout :=
  ⟨rfl, query_no_timeout_without_sigalrm _ _ _ rfl⟩

/-- C9: two requests identical except for the `delimiter` field, whose
`format` normalises to `json`, produce identical handler outcomes — the same
chunk stream, media type (`application/json`), filename
(`query_result.json`) and event trace: the delimiter has no influence on
record-array output. -/
theorem query_json_ignores_delimiter (cfg : Config) (env : Env) (sql : String)
    (fmt : Option String) (d₁ d₂ : Option String) (hfmt : normFormat fmt = "json") :
    query cfg env ⟨sql, d₁, fmt⟩ = query cfg env ⟨sql, d₂, fmt⟩ := by
  unfold query validate
  rw [hfmt]
  by_cases hs : startsWithSelect sql = true <;> simp [hs, buildResult]

/-- Witness for `query_json_ignores_delimiter`: delimiters `","` and `"|"`
give identical responses for a json-format request. -/
theorem query_json_ignores_delimiter_witness :
    normFormat (some "json") = "json" ∧
    query ⟨300, 2⟩ ⟨true, true, true, true, 0, .ok (some ["id"]) [[Value.intv 1]]⟩
        ⟨"SELECT 1", some ",", some "json"⟩
      = query ⟨300, 2⟩ ⟨true, true, true, true, 0, .ok (some ["id"]) [[Value.intv 1]]⟩
        ⟨"SELECT 1", some "|", some "json"⟩ :=
  ⟨rfl, query_json_ignores_delimiter _ _ _ _ _ _ rfl⟩

/-- C10: validation never checks the delimiter: for a csv-format SELECT
request whose delimiter is not a one-character string, against a healthy
environment, the handler still opens the connection, executes, fetches every
batch, closes the connection, and returns a streaming response
(`text/csv`, `query_result.csv`); the failure (`csv.writer`'s `TypeError`)
manifests only inside the encoding generator — `chunks` is
`Except.error badDelimiter` — after the response has been handed to the
boundary layer. -/
theorem query_unchecked_delimiter (cfg : Config) (env : Env) (sql : String)
    (d fmt : Option String) (cols : List String) (rows : List (List Value))
    (hfmt : normFormat fmt = "csv") (hsel : startsWithSelect sql = true)
    (hdb : env.dbExists = true) (hco : env.connectOk = true) (hpr : env.pragmaOk = true)
    (hto : timeoutFires cfg env = false)
    (hex : env.execResult = .ok (some cols) rows)
    (hd : delimIsChar d = false) :
    query cfg env ⟨sql, d, fmt⟩
      = (.ok ⟨.error .badDelimiter, "text/csv", "query_result.csv"⟩,
         .connOpen :: .execRun :: (fetchEvents cfg.batch rows ++ [.connClose])) := by
  have hvp : validate ⟨sql, d, fmt⟩ = .ok "csv" := by
    unfold validate
    simp [hfmt, hsel]
  have hexp : execPhase cfg env = .ok (cols, rows) := by
    simp [execPhase, hto, hex]
  have hcsv : csvGen rows cols d cfg.batch = .error .badDelimiter := by
    cases d with
    | none => rfl
    | some s =>
      cases hsd : s.data with
      | nil => simp [csvGen, hsd]
      | cons c cs =>
        cases cs with
        | nil =>
          exfalso
          have : delimIsChar (some s) = true := by
            simp [delimIsChar, hsd]
          rw [this] at hd
          exact absurd hd (by simp)
        | cons c₂ cs₂ => simp [csvGen, hsd]
  unfold query
  rw [hvp]
  simp [hdb, hco, hpr, hexp, buildResult, hcsv]

/-- Witness for `query_unchecked_delimiter`: the two-character delimiter
`";;"` passes validation; the connection is opened, the rows fetched, the
connection closed, a `text/csv` streaming response returned, and only its
generator fails. -/
theorem query_unchecked_delimiter_witness :
    query ⟨300, 2⟩ ⟨true, true, true, true, 0, .ok (some ["id"]) [[Value.intv 1]]⟩
        ⟨"SELECT 1", some ";;", some "csv"⟩
      = (.ok ⟨.error .badDelimiter, "text/csv", "query_result.csv"⟩,
         .connOpen :: .execRun
           :: (fetchEvents 2 [[Value.intv 1]] ++ [.connClose])) :=
  query_unchecked_delimiter ⟨300, 2⟩ _ _ _ _ _ _ rfl rfl rfl rfl rfl rfl rfl rfl
